import Mathlib

/-!
Verification of the agent memory / retrieval / reflection core of the
philosophers-library repository, against its natural-language specification.

The development is a shallow embedding of the TypeScript sources
(src/lib/memory, src/lib/retrieval, src/lib/reflection, src/lib/agents,
src/lib/dialogue).  Conventions used throughout:

* JavaScript `number` is modelled as `ℚ` (scores, weights, poignancies,
  embedding coordinates).  The only place the rationals are insufficient is
  `Math.sqrt` inside the cosine similarity; that operation is passed in as an
  abstract function `ℚ → ℚ`, mirroring its role as an opaque numeric
  primitive.  None of the verified properties depend on its values.
* `Date` is modelled by its millisecond epoch value (`Int`), which determines
  and is determined by the ISO-8601 string produced by `toISOString`; all
  date arithmetic in the sources is `getTime()` arithmetic on that value.
* A JavaScript `Map` is modelled as an insertion-ordered association list
  (`List (key × value)`); `Map.get` returns the entry of the key, `Map.set`
  overwrites in place or appends.  A JavaScript `Set` of strings is modelled
  as a duplicate-free list in insertion order.
* Mutation of a shared node object (`touchNode`) is modelled by updating the
  node in every container of the store, which is what the aliasing in the
  source achieves for well-formed stores.
* `async` functions calling the language-model or embedding gateways take the
  gateway as an explicit function argument; one execution trace corresponds
  to one choice of those functions.
-/

/-! ### JavaScript string primitives -/

/-- The whitespace class used by JS `trim`, `parseInt` and `\s` (the code
points occurring in practice: space, tab, LF, CR, VT, FF, NBSP, BOM). -/
def jsIsWhitespace (c : Char) : Bool :=
  c.toNat = 32 || c.toNat = 9 || c.toNat = 10 || c.toNat = 13 ||
  c.toNat = 11 || c.toNat = 12 || c.toNat = 160 || c.toNat = 65279

/-- The decimal-digit test of JS (`\d`, and the digit scan of `parseInt`):
code points 0x30-0x39. -/
def jsIsDecDigit (c : Char) : Bool :=
  48 ≤ c.toNat && c.toNat ≤ 57

/-- JS `String.prototype.trim`. -/
def jsTrim (s : String) : String :=
  ⟨((s.data.dropWhile jsIsWhitespace).reverse.dropWhile jsIsWhitespace).reverse⟩

/-- JS `String.prototype.toLowerCase`, on the ASCII fragment exercised by the
sources (`Char.toLower` lower-cases exactly the letters A–Z). -/
def jsToLowerCase (s : String) : String :=
  ⟨s.data.map Char.toLower⟩

/-- JS `String.prototype.includes`: substring containment, case-sensitive. -/
def jsIncludes (s sub : String) : Bool :=
  s.data.tails.any (fun t => sub.data.isPrefixOf t)

/-- JS `String.prototype.split` with a single-character separator. -/
def jsSplitOnChar (c : Char) : List Char → List (List Char)
  | [] => [[]]
  | x :: xs =>
    let r := jsSplitOnChar c xs
    if x = c then [] :: r
    else
      match r with
      | [] => [[x]]
      | y :: ys => (x :: y) :: ys

/-- Numeric value of a list of decimal digit characters. -/
def decDigitsVal (ds : List Char) : Nat :=
  ds.foldl (fun a c => 10 * a + (c.toNat - 48)) 0

/-- Value of a hexadecimal digit character, `none` if it is not one. -/
def hexDigitVal (c : Char) : Option Nat :=
  if 48 ≤ c.toNat ∧ c.toNat ≤ 57 then some (c.toNat - 48)
  else if 97 ≤ c.toNat ∧ c.toNat ≤ 102 then some (c.toNat - 87)
  else if 65 ≤ c.toNat ∧ c.toNat ≤ 70 then some (c.toNat - 55)
  else none

/-- Numeric value of a list of hexadecimal digit characters. -/
def hexDigitsVal (ds : List Char) : Nat :=
  ds.foldl (fun a c => 16 * a + ((hexDigitVal c).getD 0)) 0

/-- ECMAScript `parseInt(s)` with no radix argument: skip leading whitespace,
optional sign, `0x`/`0X` switches to hexadecimal, then the maximal run of
digits; `none` models `NaN`.  (For very long digit strings JS would return an
IEEE-754 approximation of this value; every use in the repository — ratings
clamped to 1..10, node-id suffixes, evidence-list indices — is small enough
to be exact.) -/
def jsParseInt (s : String) : Option Int :=
  let t0 := s.data.dropWhile jsIsWhitespace
  let sign : Int := if t0.headD ' ' = '-' then -1 else 1
  let t1 : List Char :=
    if t0.headD ' ' = '-' ∨ t0.headD ' ' = '+' then t0.tail else t0
  let isHex : Bool :=
    t1.headD ' ' = '0' ∧ (t1.getD 1 ' ' = 'x' ∨ t1.getD 1 ' ' = 'X')
  if isHex then
    let hd := (t1.drop 2).takeWhile (fun c => (hexDigitVal c).isSome)
    if hd.isEmpty then none else some (sign * (hexDigitsVal hd : Int))
  else
    let dd := t1.takeWhile jsIsDecDigit
    if dd.isEmpty then none else some (sign * (decDigitsVal dd : Int))

/-- A JS `Set` built from a list of strings: duplicates removed, first
occurrence kept, insertion order preserved.  (The fuel argument of the core
recursion is bounded by the list length, which strictly decreases at every
step, so the out-of-fuel branch is unreachable; fuel keeps the definition
structurally recursive and hence kernel-computable.) -/
def jsSetOfCore : Nat → List String → List String
  | 0, _ => []
  | _, [] => []
  | fuel + 1, x :: xs => x :: jsSetOfCore fuel (xs.filter (fun y => y ≠ x))

def jsSetOf (l : List String) : List String := jsSetOfCore l.length l

/-! ### JavaScript `Map` as an insertion-ordered association list -/

/-- `Map.get`: value of the first (unique, for maps built by `mapSet`) entry
with the given key. -/
def mapGet {β : Type} (m : List (String × β)) (k : String) : Option β :=
  (m.find? (fun p => p.1 == k)).map (·.2)

/-- `Map.set`: overwrite the entry in place if the key is present, otherwise
append a new entry. -/
def mapSet {β : Type} (m : List (String × β)) (k : String) (v : β) :
    List (String × β) :=
  if m.any (fun p => p.1 == k) then
    m.map (fun p => if p.1 == k then (k, v) else p)
  else m ++ [(k, v)]

/-! ### Basic lemmas about the map model -/

theorem mapGet_mapSet {β : Type} (m : List (String × β)) (k k' : String) (v : β) :
    mapGet (mapSet m k v) k' = if k' = k then some v else mapGet m k' := by
  by_cases hmem : m.any (fun p => p.1 == k) = true
  · have hset : mapSet m k v = m.map (fun p => if p.1 == k then (k, v) else p) := by
      rw [mapSet, if_pos hmem]
    rw [hset]
    unfold mapGet
    rw [List.find?_map]
    by_cases hk : k' = k
    · subst hk
      have hp : ((fun p : String × β => p.1 == k') ∘
            fun p : String × β => if p.1 == k' then (k', v) else p)
          = fun p : String × β => p.1 == k' := by
        funext q
        by_cases hq : q.1 = k' <;> simp [Function.comp, hq]
      rw [hp]
      rcases List.any_eq_true.mp hmem with ⟨q, hqmem, hq⟩
      have hsome : (m.find? (fun q : String × β => q.1 == k')).isSome := by
        rw [List.find?_isSome]; exact ⟨q, hqmem, hq⟩
      rcases Option.isSome_iff_exists.mp hsome with ⟨r, hr⟩
      have hrk := List.find?_some hr
      simp only [beq_iff_eq] at hrk
      simp [hr, hrk]
    · have hp : ((fun p : String × β => p.1 == k') ∘
            fun p : String × β => if p.1 == k then (k, v) else p)
          = fun p : String × β => p.1 == k' := by
        funext q
        by_cases hq : q.1 = k
        · have : (k == k') = false := by
            simp only [beq_eq_false_iff_ne]
            exact fun h => hk h.symm
          simp [Function.comp, hq, this]
        · simp [Function.comp, hq]
      rw [hp, if_neg hk]
      cases hfind : m.find? (fun q : String × β => q.1 == k') with
      | none => rfl
      | some r =>
        have hrk := List.find?_some hfind
        simp only [beq_iff_eq] at hrk
        have hrkne : ¬ r.1 = k := by
          rw [hrk]; exact hk
        simp [hrkne]
  · have hset : mapSet m k v = m ++ [(k, v)] := by
      rw [mapSet, if_neg hmem]
    rw [hset]
    unfold mapGet
    rw [List.find?_append]
    have hnone : m.find? (fun p : String × β => p.1 == k) = none := by
      rw [List.find?_eq_none]
      intro x hx hxk
      exact hmem (List.any_eq_true.mpr ⟨x, hx, hxk⟩)
    by_cases hk : k' = k
    · subst hk
      simp [hnone, List.find?]
    · cases hfind : m.find? (fun q : String × β => q.1 == k') with
      | none =>
        have : (k == k') = false := by
          simp only [beq_eq_false_iff_ne]
          exact fun h => hk h.symm
        simp [hfind, List.find?, this, hk]
      | some r => simp [hfind, hk]

theorem mapGet_mapSet_self {β : Type} (m : List (String × β)) (k : String) (v : β) :
    mapGet (mapSet m k v) k = some v := by
  rw [mapGet_mapSet]; simp

theorem mapGet_mapSet_ne {β : Type} (m : List (String × β)) {k k' : String} (v : β)
    (h : k' ≠ k) : mapGet (mapSet m k v) k' = mapGet m k' := by
  rw [mapGet_mapSet]; simp [h]

/-- On a fresh key, `Map.set` appends. -/
theorem mapSet_of_fresh {β : Type} (m : List (String × β)) (k : String) (v : β)
    (h : ∀ p ∈ m, p.1 ≠ k) : mapSet m k v = m ++ [(k, v)] := by
  rw [mapSet, if_neg]
  intro hany
  rcases List.any_eq_true.mp hany with ⟨p, hp, hpk⟩
  simp only [beq_iff_eq] at hpk
  exact h p hp hpk

/-- In a duplicate-key-free association list every entry is what `Map.get`
returns for its key. -/
theorem mapGet_of_nodup_mem {β : Type} (m : List (String × β))
    (hnd : (m.map (·.1)).Nodup) {p : String × β} (hp : p ∈ m) :
    mapGet m p.1 = some p.2 := by
  induction m with
  | nil => cases hp
  | cons q rest ih =>
    rw [List.map_cons, List.nodup_cons] at hnd
    rcases List.mem_cons.mp hp with h | h
    · subst h
      simp [mapGet, List.find?]
    · have hq : q.1 ≠ p.1 := by
        intro hcontra
        exact hnd.1 (hcontra ▸ List.mem_map.mpr ⟨p, h, rfl⟩)
      have hqb : (q.1 == p.1) = false := by simpa [beq_eq_false_iff_ne] using hq
      simpa [mapGet, List.find?, hqb] using ih hnd.2 h

/-- Overwriting a key of a duplicate-key-free map with the value it already
holds is the identity. -/
theorem mapSet_self_of_mapGet {β : Type} (m : List (String × β))
    (hnd : (m.map (·.1)).Nodup) {k : String} {v : β} (h : mapGet m k = some v) :
    mapSet m k v = m := by
  have hany : m.any (fun p => p.1 == k) = true := by
    unfold mapGet at h
    cases hfind : m.find? (fun p : String × β => p.1 == k) with
    | none => rw [hfind] at h; cases h
    | some r =>
      have h1 := List.mem_of_find?_eq_some hfind
      have h2 := List.find?_some hfind
      exact List.any_eq_true.mpr ⟨r, h1, h2⟩
  rw [mapSet, if_pos hany]
  conv_rhs => rw [← List.map_id m]
  apply List.map_congr_left
  intro p hp
  show (if p.1 == k then (k, v) else p) = p
  by_cases hpk : p.1 = k
  · have : mapGet m k = some p.2 := by
      have := mapGet_of_nodup_mem m hnd hp
      rwa [hpk] at this
    rw [h] at this
    have hv : p.2 = v := by injection this with h'; exact h'.symm
    have hp2 : p = (k, v) := by
      cases p; simp at hpk hv ⊢; exact ⟨hpk, hv⟩
    simp [hpk, hp2]
  · simp [hpk]

/-- Mapping a value transformation under the map model commutes with lookup. -/
theorem mapGet_map_value {β γ : Type} (m : List (String × β)) (f : β → γ) (k : String) :
    mapGet (m.map (fun p => (p.1, f p.2))) k = (mapGet m k).map f := by
  unfold mapGet
  rw [List.find?_map]
  have heq : ((fun p : String × γ => p.1 == k) ∘ fun p : String × β => (p.1, f p.2))
      = fun p : String × β => p.1 == k := rfl
  rw [heq]
  cases m.find? (fun p : String × β => p.1 == k) <;> rfl

/-- Replaying a duplicate-key-free association list into an empty JS map by
successive `Map.set` calls reproduces the list. -/
theorem foldl_mapSet_eq {β : Type} (m : List (String × β))
    (hnd : (m.map (·.1)).Nodup) :
    m.foldl (fun acc p => mapSet acc p.1 p.2) [] = m := by
  suffices h : ∀ (acc : List (String × β)), ((acc ++ m).map (·.1)).Nodup →
      m.foldl (fun acc p => mapSet acc p.1 p.2) acc = acc ++ m by
    simpa using h [] (by simpa using hnd)
  clear hnd
  induction m with
  | nil => intro acc _; simp
  | cons q rest ih =>
    intro acc hacc
    have hfresh : ∀ p ∈ acc, p.1 ≠ q.1 := by
      intro p hp hcontra
      have hmem1 : p.1 ∈ acc.map (·.1) := List.mem_map.mpr ⟨p, hp, rfl⟩
      have hmem2 : q.1 ∈ (q :: rest).map (·.1) := by simp
      rw [List.map_append, List.nodup_append] at hacc
      exact hacc.2.2 hmem1 (hcontra ▸ hmem2)
    rw [List.foldl_cons, mapSet_of_fresh acc q.1 q.2 hfresh]
    have := ih (acc ++ [(q.1, q.2)]) (by simpa using hacc)
    simpa using this

/-- The keys added by `mapSet` are the old keys, with the new key appended
when it was fresh. -/
theorem keys_mapSet {β : Type} (m : List (String × β)) (k : String) (v : β) :
    (mapSet m k v).map (·.1) =
      if m.any (fun p => p.1 == k) then m.map (·.1) else m.map (·.1) ++ [k] := by
  by_cases hmem : m.any (fun p => p.1 == k) = true
  · rw [mapSet, if_pos hmem, if_pos hmem, List.map_map]
    apply List.map_congr_left
    intro p _
    by_cases hp : p.1 = k <;> simp [Function.comp, hp]
  · rw [mapSet, if_neg hmem, if_neg hmem]
    simp

/-- `mapSet` preserves duplicate-freedom of keys. -/
theorem nodup_keys_mapSet {β : Type} (m : List (String × β)) (k : String) (v : β)
    (hnd : (m.map (·.1)).Nodup) : ((mapSet m k v).map (·.1)).Nodup := by
  rw [keys_mapSet]
  by_cases hmem : m.any (fun p => p.1 == k) = true
  · rwa [if_pos hmem]
  · rw [if_neg hmem]
    rw [List.nodup_append]
    refine ⟨hnd, List.nodup_singleton k, ?_⟩
    intro a ha hb
    simp only [List.mem_singleton] at hb
    subst hb
    rcases List.mem_map.mp ha with ⟨p, hp, hpk⟩
    exact hmem (List.any_eq_true.mpr ⟨p, hp, by simp [hpk]⟩)

/-! ### Decimal representation of `Nat` (for `node_<n>` identifiers) -/

/-- Structural specification of `Nat.toDigits 10`. -/
def reprDigits (n : Nat) : List Char :=
  if n < 10 then [Nat.digitChar n]
  else reprDigits (n / 10) ++ [Nat.digitChar (n % 10)]
termination_by n
decreasing_by
  exact Nat.div_lt_self (by omega) (by omega)

theorem toDigitsCore_eq_reprDigits :
    ∀ (fuel n : Nat) (acc : List Char), n < fuel →
      Nat.toDigitsCore 10 fuel n acc = reprDigits n ++ acc := by
  intro fuel
  induction fuel with
  | zero => intro n acc h; omega
  | succ fuel ih =>
    intro n acc h
    rw [Nat.toDigitsCore]
    by_cases hn : n / 10 = 0
    · have hlt : n < 10 := by omega
      have hmod : n % 10 = n := Nat.mod_eq_of_lt hlt
      simp only [hn, if_pos rfl]
      rw [reprDigits, if_pos hlt, hmod]
      rfl
    · have hge : 10 ≤ n := by
        by_contra hlt
        exact hn (Nat.div_eq_of_lt (by omega))
      have hdiv : n / 10 < n := Nat.div_lt_self (by omega) (by omega)
      have hfuel : n / 10 < fuel := by omega
      show (if n / 10 = 0 then Nat.digitChar (n % 10) :: acc
            else Nat.toDigitsCore 10 fuel (n / 10) (Nat.digitChar (n % 10) :: acc))
          = reprDigits n ++ acc
      have hrepr : reprDigits n = reprDigits (n / 10) ++ [Nat.digitChar (n % 10)] := by
        rw [reprDigits]
        rw [if_neg (by omega)]
      rw [if_neg hn, ih (n / 10) (Nat.digitChar (n % 10) :: acc) hfuel, hrepr]
      simp

theorem repr_eq_reprDigits (n : Nat) : (Nat.repr n).data = reprDigits n := by
  show (Nat.toDigits 10 n).asString.data = reprDigits n
  rw [Nat.toDigits, toDigitsCore_eq_reprDigits (n + 1) n [] (Nat.lt_succ_self n)]
  simp [List.asString]

theorem digitChar_isDigit {k : Nat} (h : k < 10) : jsIsDecDigit (Nat.digitChar k) = true := by
  interval_cases k <;> decide

theorem digitChar_val {k : Nat} (h : k < 10) : (Nat.digitChar k).toNat - 48 = k := by
  interval_cases k <;> decide

theorem reprDigits_all_digits (n : Nat) : ∀ c ∈ reprDigits n, jsIsDecDigit c = true := by
  induction n using Nat.strong_induction_on with
  | _ n ih =>
    intro c hc
    by_cases hn : n < 10
    · rw [reprDigits, if_pos hn] at hc
      simp only [List.mem_singleton] at hc
      subst hc
      exact digitChar_isDigit hn
    · rw [reprDigits, if_neg hn] at hc
      rcases List.mem_append.mp hc with h | h
      · exact ih (n / 10) (Nat.div_lt_self (by omega) (by omega)) c h
      · simp only [List.mem_singleton] at h
        subst h
        exact digitChar_isDigit (Nat.mod_lt n (by omega))

theorem reprDigits_ne_nil (n : Nat) : reprDigits n ≠ [] := by
  by_cases hn : n < 10 <;> rw [reprDigits] <;> simp [hn]

theorem decDigitsVal_append (xs : List Char) (c : Char) :
    decDigitsVal (xs ++ [c]) = 10 * decDigitsVal xs + (c.toNat - 48) := by
  unfold decDigitsVal
  rw [List.foldl_append]
  rfl

theorem decDigitsVal_reprDigits (n : Nat) : decDigitsVal (reprDigits n) = n := by
  induction n using Nat.strong_induction_on with
  | _ n ih =>
    by_cases hn : n < 10
    · rw [reprDigits, if_pos hn]
      have := digitChar_val hn
      simp [decDigitsVal, this]
    · rw [reprDigits, if_neg hn]
      rw [decDigitsVal_append]
      rw [ih (n / 10) (Nat.div_lt_self (by omega) (by omega))]
      rw [digitChar_val (Nat.mod_lt n (by omega))]
      omega

/-- A decimal digit is not JS whitespace, not a sign, not a hex marker. -/
theorem isDigit_char_facts {c : Char} (h : jsIsDecDigit c = true) :
    jsIsWhitespace c = false ∧ c ≠ '-' ∧ c ≠ '+' ∧ c ≠ 'x' ∧ c ≠ 'X' := by
  have hval : 48 ≤ c.toNat ∧ c.toNat ≤ 57 := by
    simpa [jsIsDecDigit] using h
  have h1 := hval.1
  have h2 := hval.2
  refine ⟨?_, ?_, ?_, ?_, ?_⟩
  · unfold jsIsWhitespace
    simp only [Bool.or_eq_false_iff, decide_eq_false_iff_not]
    omega
  · intro hc; subst hc; exact absurd h1 (by decide)
  · intro hc; subst hc; exact absurd h1 (by decide)
  · intro hc; subst hc; exact absurd h2 (by decide)
  · intro hc; subst hc; exact absurd h2 (by decide)

theorem dropWhile_eq_self_of_all_digits {l : List Char}
    (h : ∀ c ∈ l, jsIsDecDigit c = true) : l.dropWhile jsIsWhitespace = l := by
  cases l with
  | nil => rfl
  | cons c rest =>
    rw [List.dropWhile_cons_of_neg]
    rw [(isDigit_char_facts (h c (List.mem_cons_self c rest))).1]
    simp

theorem takeWhile_eq_self_of_all_digits {l : List Char}
    (h : ∀ c ∈ l, jsIsDecDigit c = true) : l.takeWhile jsIsDecDigit = l := by
  induction l with
  | nil => rfl
  | cons c rest ih =>
    rw [List.takeWhile_cons_of_pos (h c (List.mem_cons_self c rest))]
    rw [ih (fun d hd => h d (List.mem_cons_of_mem c hd))]

/-- `parseInt` inverts the decimal printing of a natural number. -/
theorem jsParseInt_repr (n : Nat) : jsParseInt (Nat.repr n) = some (n : Int) := by
  have hdigits := reprDigits_all_digits n
  have hdata : (Nat.repr n).data = reprDigits n := repr_eq_reprDigits n
  unfold jsParseInt
  rw [hdata]
  rw [dropWhile_eq_self_of_all_digits hdigits]
  cases hrd : reprDigits n with
  | nil => exact absurd hrd (reprDigits_ne_nil n)
  | cons c rest =>
    have hdigits' : ∀ d ∈ c :: rest, jsIsDecDigit d = true := by
      rw [← hrd]; exact hdigits
    have hc : jsIsDecDigit c = true := hdigits' c (List.mem_cons_self c rest)
    have hfacts := isDigit_char_facts hc
    have hhead : (c :: rest).headD ' ' = c := rfl
    dsimp only
    rw [hhead]
    have hsign2 : ¬ (c = '-' ∨ c = '+') := by
      push_neg
      exact ⟨hfacts.2.1, hfacts.2.2.1⟩
    rw [if_neg hfacts.2.1, if_neg hsign2]
    have hhexneg : ¬ ((c :: rest).headD ' ' = '0' ∧
        ((c :: rest).getD 1 ' ' = 'x' ∨ (c :: rest).getD 1 ' ' = 'X')) := by
      rintro ⟨-, h2 | h2⟩ <;>
      · cases rest with
        | nil => simp [List.getD] at h2
        | cons d rest' =>
          have hd : jsIsDecDigit d = true := hdigits' d (by simp)
          have hfd := isDigit_char_facts hd
          have hgd : (c :: d :: rest').getD 1 ' ' = d := rfl
          rw [hgd] at h2
          first
            | exact hfd.2.2.2.1 h2
            | exact hfd.2.2.2.2 h2
    rw [decide_eq_false hhexneg]
    simp only [Bool.false_eq_true, if_false]
    rw [takeWhile_eq_self_of_all_digits hdigits']
    have hne : ((c :: rest).isEmpty) = false := rfl
    rw [hne]
    simp only [Bool.false_eq_true, if_false]
    rw [← hrd, decDigitsVal_reprDigits n]
    simp

/-! ### Node identifiers -/

/-- `generateNodeId` from src/lib/memory/index.ts: the template literal
`node_<count>`. -/
def generateNodeId (count : Nat) : String :=
  "node_" ++ toString count

theorem splitOnChar_of_not_mem {c : Char} {l : List Char} (h : c ∉ l) :
    jsSplitOnChar c l = [l] := by
  induction l with
  | nil => rfl
  | cons x xs ih =>
    have hx : ¬ x = c := fun hc => h (hc ▸ List.mem_cons_self x xs)
    have hxs : c ∉ xs := fun hc => h (List.mem_cons_of_mem x hc)
    rw [jsSplitOnChar]
    simp only [hx, if_false, ih hxs]

theorem splitOnChar_generateNodeId (n : Nat) :
    jsSplitOnChar '_' (generateNodeId n).data = ["node".data, reprDigits n] := by
  have hno : '_' ∉ reprDigits n := by
    intro hmem
    have := reprDigits_all_digits n '_' hmem
    simp [jsIsDecDigit] at this
  have hdata : (generateNodeId n).data = 'n' :: 'o' :: 'd' :: 'e' :: '_' :: reprDigits n := by
    show ("node_" ++ toString n).data = _
    rw [String.data_append]
    show 'n' :: 'o' :: 'd' :: 'e' :: '_' :: (Nat.repr n).data = _
    rw [repr_eq_reprDigits]
  rw [hdata]
  rw [jsSplitOnChar, jsSplitOnChar, jsSplitOnChar, jsSplitOnChar, jsSplitOnChar]
  rw [splitOnChar_of_not_mem hno]
  rfl

/-- The numeric sort key used by `loadFromData`:
`parseInt(id.split('_')[1])`, with `NaN` (which only arises for ids not of
the `node_<n>` shape, never produced by the store) collapsed to 0. -/
def idSuffixVal (s : String) : Int :=
  (((jsSplitOnChar '_' s.data).getD 1 []).asString |> jsParseInt).getD 0

theorem idSuffixVal_generateNodeId (n : Nat) : idSuffixVal (generateNodeId n) = n := by
  unfold idSuffixVal
  rw [splitOnChar_generateNodeId]
  have h1 : (["node".data, reprDigits n].getD 1 []) = reprDigits n := rfl
  rw [h1]
  have h2 : (reprDigits n).asString = Nat.repr n := by
    apply String.ext
    rw [repr_eq_reprDigits]
    rfl
  rw [h2, jsParseInt_repr]
  rfl

theorem generateNodeId_injective {a b : Nat} (h : generateNodeId a = generateNodeId b) :
    a = b := by
  have := congrArg idSuffixVal h
  rw [idSuffixVal_generateNodeId, idSuffixVal_generateNodeId] at this
  exact_mod_cast this

/-! ### Memory node data model (src/lib/types.ts) -/

/-- The four node types of the memory stream. -/
inductive MemoryNodeType : Type
  | event
  | thought
  | chat
  | source
deriving DecidableEq, Repr

/-- `MemoryNode` from src/lib/types.ts.  Dates are epoch milliseconds,
numbers are rationals; `embedding` vectors live in the store's cache, keyed
by `embeddingKey`, exactly as in the source. -/
structure MemoryNode : Type where
  id : String
  nodeCount : Nat
  typeCount : Nat
  type : MemoryNodeType
  depth : Nat
  created : Int
  expiration : Option Int
  lastAccessed : Int
  subject : String
  predicate : String
  object : String
  description : String
  embeddingKey : String
  poignancy : ℚ
  keywords : List String
  evidence : List String
  sourceId : Option String := none
  sourcePassage : Option String := none
deriving DecidableEq, Repr

/-- `ScoredMemoryNode` from src/lib/types.ts. -/
structure ScoredMemoryNode : Type where
  node : MemoryNode
  recencyScore : ℚ
  relevanceScore : ℚ
  importanceScore : ℚ
  totalScore : ℚ
deriving DecidableEq, Repr

/-! ### The memory stream (src/lib/memory/index.ts) -/

/-- The mutable state of a `MemoryStream` instance.  Each JS `Map` becomes an
insertion-ordered association list; each sequential index is a most-recent-
first list. -/
structure MemoryStream : Type where
  idToNode : List (String × MemoryNode) := []
  embeddings : List (String × List ℚ) := []
  seqEvent : List MemoryNode := []
  seqThought : List MemoryNode := []
  seqChat : List MemoryNode := []
  seqSource : List MemoryNode := []
  kwToEvent : List (String × List MemoryNode) := []
  kwToThought : List (String × List MemoryNode) := []
  kwToChat : List (String × List MemoryNode) := []
  kwToSource : List (String × List MemoryNode) := []
  kwStrengthEvent : List (String × Nat) := []
  kwStrengthThought : List (String × Nat) := []
deriving DecidableEq, Repr

/-- The store a plain `new MemoryStream()` starts from. -/
def MemoryStream.empty : MemoryStream := {}

namespace MemoryStream

/-- Private helper `addToKeywordIndex`: prepend the node to the (lower-cased)
bucket of every keyword. -/
def addToKeywordIndex (node : MemoryNode) (keywords : List String)
    (index : List (String × List MemoryNode)) : List (String × List MemoryNode) :=
  keywords.foldl (fun idx kw =>
    let key := jsToLowerCase kw
    mapSet idx key (node :: (mapGet idx key).getD [])) index

/-- The keyword-strength update shared by `addEvent` and `addThought`:
increment each keyword's counter unless the node is the degenerate
`is idle` observation. -/
def bumpKeywordStrength (predicate object : String) (keywords : List String)
    (strength : List (String × Nat)) : List (String × Nat) :=
  if predicate ++ " " ++ object ≠ "is idle" then
    keywords.foldl (fun m kw => mapSet m kw ((mapGet m kw).getD 0 + 1)) strength
  else strength

/-- `MemoryStream.addEvent`.  Returns the created node together with the
updated store (the source returns the node and mutates `this`). -/
def addEvent (ms : MemoryStream) (created : Int) (expiration : Option Int)
    (subject predicate object description : String) (keywords : List String)
    (poignancy : ℚ) (embeddingPair : String × List ℚ)
    (evidence : List String := []) : MemoryNode × MemoryStream :=
  let nodeCount := ms.idToNode.length + 1
  let typeCount := ms.seqEvent.length + 1
  let nodeId := generateNodeId nodeCount
  let node : MemoryNode :=
    { id := nodeId, nodeCount := nodeCount, typeCount := typeCount,
      type := .event, depth := 0, created := created, expiration := expiration,
      lastAccessed := created, subject := subject, predicate := predicate,
      object := object, description := description,
      embeddingKey := embeddingPair.1, poignancy := poignancy,
      keywords := keywords, evidence := evidence }
  (node,
    { ms with
      seqEvent := node :: ms.seqEvent,
      kwToEvent := addToKeywordIndex node keywords ms.kwToEvent,
      idToNode := mapSet ms.idToNode nodeId node,
      kwStrengthEvent := bumpKeywordStrength predicate object keywords ms.kwStrengthEvent,
      embeddings := mapSet ms.embeddings embeddingPair.1 embeddingPair.2 })

/-- `MemoryStream.addThought`, computing `depth` from the cited evidence:
`1 + max` over `idToNode.get(id)?.depth || 0`. -/
def addThought (ms : MemoryStream) (created : Int) (expiration : Option Int)
    (subject predicate object description : String) (keywords : List String)
    (poignancy : ℚ) (embeddingPair : String × List ℚ)
    (evidence : List String := []) : MemoryNode × MemoryStream :=
  let nodeCount := ms.idToNode.length + 1
  let typeCount := ms.seqThought.length + 1
  let nodeId := generateNodeId nodeCount
  let depth : Nat :=
    if evidence.length > 0 then
      (evidence.map (fun id => ((mapGet ms.idToNode id).map (·.depth)).getD 0)).foldr
        max 0 + 1
    else 1
  let node : MemoryNode :=
    { id := nodeId, nodeCount := nodeCount, typeCount := typeCount,
      type := .thought, depth := depth, created := created, expiration := expiration,
      lastAccessed := created, subject := subject, predicate := predicate,
      object := object, description := description,
      embeddingKey := embeddingPair.1, poignancy := poignancy,
      keywords := keywords, evidence := evidence }
  (node,
    { ms with
      seqThought := node :: ms.seqThought,
      kwToThought := addToKeywordIndex node keywords ms.kwToThought,
      idToNode := mapSet ms.idToNode nodeId node,
      kwStrengthThought := bumpKeywordStrength predicate object keywords ms.kwStrengthThought,
      embeddings := mapSet ms.embeddings embeddingPair.1 embeddingPair.2 })

/-- `MemoryStream.addChat`. -/
def addChat (ms : MemoryStream) (created : Int) (expiration : Option Int)
    (subject predicate object description : String) (keywords : List String)
    (poignancy : ℚ) (embeddingPair : String × List ℚ)
    (evidence : List String := []) : MemoryNode × MemoryStream :=
  let nodeCount := ms.idToNode.length + 1
  let typeCount := ms.seqChat.length + 1
  let nodeId := generateNodeId nodeCount
  let node : MemoryNode :=
    { id := nodeId, nodeCount := nodeCount, typeCount := typeCount,
      type := .chat, depth := 0, created := created, expiration := expiration,
      lastAccessed := created, subject := subject, predicate := predicate,
      object := object, description := description,
      embeddingKey := embeddingPair.1, poignancy := poignancy,
      keywords := keywords, evidence := evidence }
  (node,
    { ms with
      seqChat := node :: ms.seqChat,
      kwToChat := addToKeywordIndex node keywords ms.kwToChat,
      idToNode := mapSet ms.idToNode nodeId node,
      embeddings := mapSet ms.embeddings embeddingPair.1 embeddingPair.2 })

/-- `MemoryStream.addSource`: no expiration, no evidence, carries the cited
book id and the literal passage. -/
def addSource (ms : MemoryStream) (created : Int) (sourceId sourcePassage : String)
    (subject predicate object description : String) (keywords : List String)
    (poignancy : ℚ) (embeddingPair : String × List ℚ) :
    MemoryNode × MemoryStream :=
  let nodeCount := ms.idToNode.length + 1
  let typeCount := ms.seqSource.length + 1
  let nodeId := generateNodeId nodeCount
  let node : MemoryNode :=
    { id := nodeId, nodeCount := nodeCount, typeCount := typeCount,
      type := .source, depth := 0, created := created, expiration := none,
      lastAccessed := created, subject := subject, predicate := predicate,
      object := object, description := description,
      embeddingKey := embeddingPair.1, poignancy := poignancy,
      keywords := keywords, evidence := [],
      sourceId := some sourceId, sourcePassage := some sourcePassage }
  (node,
    { ms with
      seqSource := node :: ms.seqSource,
      kwToSource := addToKeywordIndex node keywords ms.kwToSource,
      idToNode := mapSet ms.idToNode nodeId node,
      embeddings := mapSet ms.embeddings embeddingPair.1 embeddingPair.2 })

/-- `MemoryStream.getNode`. -/
def getNode (ms : MemoryStream) (nodeId : String) : Option MemoryNode :=
  mapGet ms.idToNode nodeId

/-- `MemoryStream.getEmbedding`. -/
def getEmbedding (ms : MemoryStream) (embeddingKey : String) : Option (List ℚ) :=
  mapGet ms.embeddings embeddingKey

/-- `MemoryStream.getAllMemories`: events and thoughts. -/
def getAllMemories (ms : MemoryStream) : List MemoryNode :=
  ms.seqEvent ++ ms.seqThought

/-- `MemoryStream.getAllMemoriesWithSources`: events, thoughts and sources. -/
def getAllMemoriesWithSources (ms : MemoryStream) : List MemoryNode :=
  ms.seqEvent ++ ms.seqThought ++ ms.seqSource

/-- `MemoryStream.getRecentEvents`. -/
def getRecentEvents (ms : MemoryStream) (count : Nat) : List MemoryNode :=
  ms.seqEvent.take count

/-- `MemoryStream.getRecentThoughts`. -/
def getRecentThoughts (ms : MemoryStream) (count : Nat) : List MemoryNode :=
  ms.seqThought.take count

/-- `MemoryStream.touchNode`: set `lastAccessed` of the node found under
`nodeId`.  The source mutates the shared node object; every container holding
an alias of it observes the update, so the model rewrites the node in each
container. -/
def touchNode (ms : MemoryStream) (nodeId : String) (time : Int) : MemoryStream :=
  match mapGet ms.idToNode nodeId with
  | none => ms
  | some _ =>
    let upd : MemoryNode → MemoryNode := fun n =>
      if n.id == nodeId then { n with lastAccessed := time } else n
    { ms with
      idToNode := ms.idToNode.map (fun p =>
        if p.1 == nodeId then (p.1, { p.2 with lastAccessed := time }) else p),
      seqEvent := ms.seqEvent.map upd,
      seqThought := ms.seqThought.map upd,
      seqChat := ms.seqChat.map upd,
      seqSource := ms.seqSource.map upd,
      kwToEvent := ms.kwToEvent.map (fun p => (p.1, p.2.map upd)),
      kwToThought := ms.kwToThought.map (fun p => (p.1, p.2.map upd)),
      kwToChat := ms.kwToChat.map (fun p => (p.1, p.2.map upd)),
      kwToSource := ms.kwToSource.map (fun p => (p.1, p.2.map upd)) }

end MemoryStream

/-! ### Serialization (toJSON / loadFromData) -/

/-- `SerializedNode`: the per-node record written by `toJSON`.  Date fields
are the epoch values whose ISO-8601 strings the source writes; `toISOString`
and `new Date(...)` translate between the two losslessly. -/
structure SerializedNode : Type where
  nodeCount : Nat
  typeCount : Nat
  type : MemoryNodeType
  depth : Nat
  created : Int
  expiration : Option Int
  lastAccessed : Int
  subject : String
  predicate : String
  object : String
  description : String
  embeddingKey : String
  poignancy : ℚ
  keywords : List String
  evidence : List String
  sourceId : Option String := none
  sourcePassage : Option String := none
deriving DecidableEq, Repr

/-- `MemoryStreamData`.  JS objects keyed by strings are association lists in
property-insertion order (the `node_<n>` keys and embedding texts used here
are not array-index-like, so JS preserves that order). -/
structure MemoryStreamData : Type where
  nodes : List (String × SerializedNode)
  embeddings : List (String × List ℚ)
  kwStrengthEvent : List (String × Nat)
  kwStrengthThought : List (String × Nat)
deriving DecidableEq, Repr

/-- The per-node record built inside `toJSON`. -/
def serializeNode (node : MemoryNode) : SerializedNode :=
  { nodeCount := node.nodeCount, typeCount := node.typeCount,
    type := node.type, depth := node.depth, created := node.created,
    expiration := node.expiration, lastAccessed := node.lastAccessed,
    subject := node.subject, predicate := node.predicate,
    object := node.object, description := node.description,
    embeddingKey := node.embeddingKey, poignancy := node.poignancy,
    keywords := node.keywords, evidence := node.evidence,
    sourceId := node.sourceId, sourcePassage := node.sourcePassage }

/-- `MemoryStream.toJSON`. -/
def MemoryStream.toJSON (ms : MemoryStream) : MemoryStreamData :=
  { nodes := ms.idToNode.map (fun p => (p.1, serializeNode p.2)),
    embeddings := ms.embeddings,
    kwStrengthEvent := ms.kwStrengthEvent,
    kwStrengthThought := ms.kwStrengthThought }

/-- One iteration of the replay loop in `loadFromData`: re-issue the typed
add call for a serialized node.  `new Set(serialized.keywords)` is `jsSetOf`;
the embedding pair is looked up in the already-loaded cache
(`this.embeddings.get(key) || []`). -/
def replayNode (ms : MemoryStream) (sn : SerializedNode) : MemoryStream :=
  let embeddingPair : String × List ℚ :=
    (sn.embeddingKey, (mapGet ms.embeddings sn.embeddingKey).getD [])
  let keywords := jsSetOf sn.keywords
  match sn.type with
  | .event =>
      (ms.addEvent sn.created sn.expiration sn.subject sn.predicate sn.object
        sn.description keywords sn.poignancy embeddingPair sn.evidence).2
  | .thought =>
      (ms.addThought sn.created sn.expiration sn.subject sn.predicate sn.object
        sn.description keywords sn.poignancy embeddingPair sn.evidence).2
  | .chat =>
      (ms.addChat sn.created sn.expiration sn.subject sn.predicate sn.object
        sn.description keywords sn.poignancy embeddingPair sn.evidence).2
  | .source =>
      (ms.addSource sn.created (sn.sourceId.getD "") (sn.sourcePassage.getD "")
        sn.subject sn.predicate sn.object sn.description keywords
        sn.poignancy embeddingPair).2

/-- `new MemoryStream(savedData)`: `loadFromData` on a fresh store.  The
embedding cache is loaded first; node ids are sorted ascending by the numeric
suffix of `node_<n>` and replayed through the typed add operations; the two
keyword-strength maps are then overwritten from the data. -/
def MemoryStream.ofData (data : MemoryStreamData) : MemoryStream :=
  let ms0 : MemoryStream :=
    { MemoryStream.empty with
      embeddings := data.embeddings.foldl (fun m p => mapSet m p.1 p.2) [] }
  let nodeIds :=
    List.insertionSort (fun a b => idSuffixVal a ≤ idSuffixVal b) (data.nodes.map (·.1))
  let ms1 := nodeIds.foldl (fun ms nodeId =>
    match mapGet data.nodes nodeId with
    | some sn => replayNode ms sn
    | none => ms) ms0
  { ms1 with
    kwStrengthEvent :=
      data.kwStrengthEvent.foldl (fun m p => mapSet m p.1 p.2) ms1.kwStrengthEvent,
    kwStrengthThought :=
      data.kwStrengthThought.foldl (fun m p => mapSet m p.1 p.2) ms1.kwStrengthThought }

/-! ### Retrieval (src/lib/retrieval/index.ts) -/

/-- Minimum of the values of a nonempty score map, `Math.min(...values)`.
(The empty case would be `Infinity` in JS; `retrieve` never normalizes an
empty map, so the placeholder value 0 is unreachable.) -/
def listMin : List ℚ → ℚ
  | [] => 0
  | x :: xs => xs.foldl min x

/-- Maximum of the values of a nonempty score map, `Math.max(...values)`. -/
def listMax : List ℚ → ℚ
  | [] => 0
  | x :: xs => xs.foldl max x

/-- `cosineSimilarity`: throws on a length mismatch (modelled by `Except`).
`sqrtFn` stands for `Math.sqrt`. -/
def cosineSimilarity (sqrtFn : ℚ → ℚ) (a b : List ℚ) : Except String ℚ :=
  if a.length ≠ b.length then
    .error "Vectors must have same length"
  else
    let dotProduct := ((a.zip b).map (fun p => p.1 * p.2)).foldl (· + ·) 0
    let normA := (a.map (fun x => x * x)).foldl (· + ·) 0
    let normB := (b.map (fun x => x * x)).foldl (· + ·) 0
    let magnitude := sqrtFn normA * sqrtFn normB
    if magnitude = 0 then .ok 0 else .ok (dotProduct / magnitude)

/-- `normalizeScores`: min-max normalize into `[targetMin, targetMax]`; if
all values coincide every key gets the midpoint `(targetMax - targetMin)/2`. -/
def normalizeScores (scores : List (String × ℚ)) (targetMin targetMax : ℚ) :
    List (String × ℚ) :=
  let values := scores.map (·.2)
  let minVal := listMin values
  let maxVal := listMax values
  let range := maxVal - minVal
  if range = 0 then
    scores.map (fun p => (p.1, (targetMax - targetMin) / 2))
  else
    scores.map (fun p =>
      (p.1, ((p.2 - minVal) * (targetMax - targetMin)) / range + targetMin))

/-- `extractRecency`: sort by `lastAccessed` descending and award
`recencyDecay ^ rank`. -/
def extractRecency (nodes : List MemoryNode) (recencyDecay : ℚ) :
    List (String × ℚ) :=
  let sorted := List.insertionSort (fun a b => b.lastAccessed ≤ a.lastAccessed) nodes
  sorted.enum.foldl
    (fun scores p => mapSet scores p.2.id (recencyDecay ^ p.1)) []

/-- `extractImportance`: raw poignancy per node. -/
def extractImportance (nodes : List MemoryNode) : List (String × ℚ) :=
  nodes.foldl (fun scores node => mapSet scores node.id node.poignancy) []

/-- `extractRelevance`: cosine similarity of each node's cached embedding
against the focal embedding; nodes with no cached embedding score 0.  A
length mismatch inside `cosineSimilarity` propagates as an exception. -/
def extractRelevance (sqrtFn : ℚ → ℚ) (nodes : List MemoryNode)
    (focalPointEmbedding : List ℚ) (memoryStream : MemoryStream) :
    Except String (List (String × ℚ)) :=
  nodes.foldlM (fun scores node =>
    match memoryStream.getEmbedding node.embeddingKey with
    | some nodeEmbedding => do
        let similarity ← cosineSimilarity sqrtFn nodeEmbedding focalPointEmbedding
        pure (mapSet scores node.id similarity)
    | none => pure (mapSet scores node.id 0)) []

/-- `RetrievalConfig`. -/
structure RetrievalConfig : Type where
  recencyWeight : ℚ
  relevanceWeight : ℚ
  importanceWeight : ℚ
  recencyDecay : ℚ
  maxResults : Nat
deriving DecidableEq, Repr

/-- `DEFAULT_CONFIG`: the Stanford weights 0.5 / 3 / 2, decay 0.99,
top 30. -/
def DEFAULT_CONFIG : RetrievalConfig :=
  { recencyWeight := 1/2, relevanceWeight := 3, importanceWeight := 2,
    recencyDecay := 99/100, maxResults := 30 }

/-- `Partial<RetrievalConfig>`: the optional per-call overrides. -/
structure RetrievalConfigPartial : Type where
  recencyWeight : Option ℚ := none
  relevanceWeight : Option ℚ := none
  importanceWeight : Option ℚ := none
  recencyDecay : Option ℚ := none
  maxResults : Option Nat := none
deriving DecidableEq, Repr

/-- `{ ...DEFAULT_CONFIG, ...config }`. -/
def mergeConfig (config : RetrievalConfigPartial) : RetrievalConfig :=
  { recencyWeight := config.recencyWeight.getD DEFAULT_CONFIG.recencyWeight,
    relevanceWeight := config.relevanceWeight.getD DEFAULT_CONFIG.relevanceWeight,
    importanceWeight := config.importanceWeight.getD DEFAULT_CONFIG.importanceWeight,
    recencyDecay := config.recencyDecay.getD DEFAULT_CONFIG.recencyDecay,
    maxResults := config.maxResults.getD DEFAULT_CONFIG.maxResults }

/-- The candidate pool of `retrieve`: all memories including sources, minus
any node whose `embeddingKey` contains the substring `idle`. -/
def retrievalPool (ms : MemoryStream) : List MemoryNode :=
  ms.getAllMemoriesWithSources.filter (fun node => !(jsIncludes node.embeddingKey "idle"))

/-- The body of `retrieve`'s per-focal-point loop, with the merged
configuration.  `getEmbedding` is the embedding gateway, `now` the value of
`new Date()` at the touch step.  Returns the scored top nodes together with
the store as mutated by the `touchNode` calls (the returned records alias
the store's nodes in the source, so the store is authoritative for the
updated `lastAccessed`). -/
def retrieveOne (sqrtFn : ℚ → ℚ) (getEmbedding : String → List ℚ) (now : Int)
    (cfg : RetrievalConfig) (ms : MemoryStream) (focalPoint : String) :
    Except String (List ScoredMemoryNode × MemoryStream) :=
  let allNodes := retrievalPool ms
  if allNodes.length = 0 then .ok ([], ms)
  else
    let sortedNodes := List.insertionSort (fun a b => a.lastAccessed ≤ b.lastAccessed) allNodes
    let recencyScores := normalizeScores (extractRecency sortedNodes cfg.recencyDecay) 0 1
    let importanceScores := normalizeScores (extractImportance sortedNodes) 0 1
    let focalEmbedding := getEmbedding focalPoint
    match extractRelevance sqrtFn sortedNodes focalEmbedding ms with
    | .error e => .error e
    | .ok relevanceScoresRaw =>
      let relevanceScores := normalizeScores relevanceScoresRaw 0 1
      let scoredNodes : List ScoredMemoryNode := sortedNodes.map (fun node =>
        let recency := (mapGet recencyScores node.id).getD 0
        let relevance := (mapGet relevanceScores node.id).getD 0
        let importance := (mapGet importanceScores node.id).getD 0
        { node := node, recencyScore := recency, relevanceScore := relevance,
          importanceScore := importance,
          totalScore := cfg.recencyWeight * recency + cfg.relevanceWeight * relevance +
            cfg.importanceWeight * importance })
      let sorted := List.insertionSort (fun a b => b.totalScore ≤ a.totalScore) scoredNodes
      let topNodes := sorted.take cfg.maxResults
      let msTouched := topNodes.foldl (fun s scored => s.touchNode scored.node.id now) ms
      .ok (topNodes, msTouched)

/-- `retrieve`: merge the configuration once, then run the per-focal-point
loop, accumulating the results map and threading the touched store. -/
def retrieve (sqrtFn : ℚ → ℚ) (getEmbedding : String → List ℚ) (now : Int)
    (ms : MemoryStream) (focalPoints : List String)
    (config : RetrievalConfigPartial := {}) :
    Except String (List (String × List ScoredMemoryNode) × MemoryStream) := do
  let cfg := mergeConfig config
  focalPoints.foldlM (fun (acc : List (String × List ScoredMemoryNode) × MemoryStream) focalPoint => do
    let (topNodes, ms') ← retrieveOne sqrtFn getEmbedding now cfg acc.2 focalPoint
    pure (mapSet acc.1 focalPoint topNodes, ms')) ([], ms)

/-! ### Text parsing helpers for the reflection engine

These model the JS regular expressions of src/lib/reflection/index.ts on the
character-list representation: leftmost match, case-insensitive label search,
greedy `\s*`, lazy `(.+?)` bounded by a lookahead alternative or the end of
input (`/s` flag: dot crosses newlines), greedy `(.+)` stopping at a line
terminator (no `/s` flag). -/

/-- JS line terminators (`.` without the `/s` flag stops at these). -/
def isLineTerminator (c : Char) : Bool :=
  c.toNat = 10 || c.toNat = 13 || c.toNat = 8232 || c.toNat = 8233

/-- First index at which `pat` occurs in `l` (both already normalized). -/
def firstMatchIdx (pat l : List Char) : Option Nat :=
  (List.range (l.length + 1)).find? (fun i => pat.isPrefixOf (l.drop i))

/-- `String.prototype.split(/\d+\./)`: scan left to right; each maximal
digit run immediately followed by a period is a separator (backtracking
inside a digit run cannot produce any other match). -/
def splitNumDotCore : Nat → List Char → List Char → List (List Char)
  | 0, _, acc => [acc.reverse]
  | _ + 1, [], acc => [acc.reverse]
  | fuel + 1, c :: rest, acc =>
    if jsIsDecDigit c then
      match rest.dropWhile jsIsDecDigit with
      | '.' :: rest' => acc.reverse :: splitNumDotCore fuel rest' []
      | other => splitNumDotCore fuel other ((c :: rest.takeWhile jsIsDecDigit).reverse ++ acc)
    else splitNumDotCore fuel rest (c :: acc)

/-- `response.split(/\d+\./)` as a string operation.  (Fuel as in
`jsSetOfCore`: the scanned list shrinks at every step, so `s.data.length`
fuel never runs out.) -/
def jsSplitNumDot (s : String) : List String :=
  (splitNumDotCore s.data.length s.data []).map (fun l => (⟨l⟩ : String))

/-- Lazy capture `LABEL\s*(.+?)(?=STOP₁|STOP₂|$)` under flags `/is`: find the
label case-insensitively, skip the greedy whitespace run, then capture at
least one character up to (exclusive) the first following stop label, or to
the end of input; when the whitespace run reaches the end of input the
engine backtracks one whitespace character into the capture. -/
def lazyCapture (label : List Char) (stops : List (List Char)) (block : List Char) :
    Option String :=
  let low := block.map Char.toLower
  match firstMatchIdx label low with
  | none => none
  | some i =>
    let p := i + label.length
    let w := ((low.drop p).takeWhile jsIsWhitespace).length
    if p + w < low.length then
      let start := p + w
      let stopAt :=
        match (List.range' (start + 1) (low.length - (start + 1))).find?
            (fun j => stops.any (fun st => st.isPrefixOf (low.drop j))) with
        | some j => j
        | none => low.length
      some ⟨(block.drop start).take (stopAt - start)⟩
    else if w > 0 then
      some ⟨(block.drop (p + w - 1)).take 1⟩
    else none

/-- Greedy line capture `LABEL\s*(.+)` under flag `/i`: find the label
case-insensitively, skip whitespace (backtracking into it when the remainder
of the line is empty), capture greedily up to the next line terminator. -/
def lineCapture (label : List Char) (s : List Char) : Option String :=
  let low := s.map Char.toLower
  match firstMatchIdx label low with
  | none => none
  | some i =>
    let p := i + label.length
    let w := ((s.drop p).takeWhile jsIsWhitespace).length
    match (List.range (w + 1)).reverse.find? (fun k =>
        decide (p + k < s.length) && !(isLineTerminator (s.getD (p + k) '\n'))) with
    | some k => some ⟨(s.drop (p + k)).takeWhile (fun c => !(isLineTerminator c))⟩
    | none => none

/-- `x?.trim() || fallback`: an absent or trimmed-to-empty capture (empty
strings are falsy) yields the fallback. -/
def jsOrElse (x : Option String) (fallback : String) : String :=
  match x with
  | some s => if s = "" then fallback else s
  | none => fallback

/-- `archetype.replace('_', ' ')`: JS `replace` with a string pattern
replaces only the first occurrence. -/
def replaceFirstChar (c r : Char) : List Char → List Char
  | [] => []
  | x :: xs => if x = c then r :: xs else x :: replaceFirstChar c r xs

def jsReplaceUnderscore (s : String) : String :=
  ⟨replaceFirstChar '_' ' ' s.data⟩

/-! ### Agent data model (src/lib/types.ts, the fields the embedded
operations read; presentation-only fields — position, sprites, conversation
scratch, retrieval weights — are not consulted by any embedded function and
are omitted). -/

structure PhilosopherIdentity : Type where
  name : String
  archetype : String
deriving DecidableEq, Repr

structure AgentScratch : Type where
  currTime : Int
  importanceTriggerMax : ℚ
  importanceTriggerCurr : ℚ
  importanceEleN : Nat
  recentInsights : List String
deriving DecidableEq, Repr

structure PhilosopherAgent : Type where
  id : String
  identity : PhilosopherIdentity
  scratch : AgentScratch
deriving DecidableEq, Repr

/-- The external world of one execution trace: the language-model gateway,
the embedding gateway, `Math.sqrt`, and the value `new Date()` yields during
the retrieval touch step. -/
structure SimEnv : Type where
  llmCall : String → String
  getEmbedding : String → List ℚ
  sqrtFn : ℚ → ℚ
  wallClock : Int

/-! ### Reflection engine (src/lib/reflection/index.ts) -/

/-- `shouldReflect`: the importance budget has reached zero. -/
def shouldReflect (agent : PhilosopherAgent) : Bool :=
  agent.scratch.importanceTriggerCurr ≤ 0

/-- `resetReflectionCounter`. -/
def resetReflectionCounter (agent : PhilosopherAgent) : PhilosopherAgent :=
  { agent with
    scratch.importanceTriggerCurr := agent.scratch.importanceTriggerMax,
    scratch.importanceEleN := 0 }

/-- `updateReflectionCounter`. -/
def updateReflectionCounter (agent : PhilosopherAgent) (eventPoignancy : ℚ) :
    PhilosopherAgent :=
  { agent with
    scratch.importanceTriggerCurr := agent.scratch.importanceTriggerCurr - eventPoignancy,
    scratch.importanceEleN := agent.scratch.importanceEleN + 1 }

/-- `REFLECTION_PROMPTS.focalPoints`. -/
def focalPointsPrompt (name statements : String) : String :=
  "\n" ++ name ++ " has been observing and thinking about the following:\n\n" ++
  statements ++
  "\n\nGiven only the information above, what are 3 most salient high-level questions that " ++
  name ++ " can answer about their recent observations and thoughts?\n\n1."

/-- `REFLECTION_PROMPTS.philosophicalInsights`. -/
def philosophicalInsightsPrompt (name statements archetype : String) : String :=
  "\n" ++ name ++ ", a " ++ archetype ++
  " of the early modern period, has been contemplating the following:\n\n" ++
  statements ++
  "\n\nAs " ++ name ++ ", what philosophical insights arise from these contemplations? Consider:\n" ++
  "- How do these observations relate to your core beliefs?\n" ++
  "- What tensions or contradictions emerge?\n" ++
  "- What synthesis might resolve apparent conflicts?\n" ++
  "- How might your sources (texts you have written or studied) illuminate these matters?\n\n" ++
  "Provide 3-5 insights, each grounded in " ++ name ++ "'s intellectual tradition.\n\n" ++
  "Format each as:\nINSIGHT: [the philosophical insight]\nGROUNDING: [how this connects to " ++
  name ++ "'s documented thought]\nEVIDENCE: [comma-separated list of statement numbers]\n\n1."

/-- `generateFocalPoints`: join the `embeddingKey` texts of the
`importanceEleN` most recent events and thoughts, ask the model, parse the
numbered list, keep at most three nonempty trimmed items. -/
def generateFocalPoints (env : SimEnv) (agent : PhilosopherAgent) (ms : MemoryStream) :
    List String :=
  let recentMemories :=
    ms.getRecentEvents agent.scratch.importanceEleN ++
    ms.getRecentThoughts agent.scratch.importanceEleN
  let statements := String.intercalate "\n" (recentMemories.map (·.embeddingKey))
  let prompt := focalPointsPrompt agent.identity.name statements
  let response := env.llmCall prompt
  let focalPoints :=
    ((jsSplitNumDot response).map jsTrim).filter (fun s => decide (0 < s.data.length))
  focalPoints.take 3

/-- `InsightWithEvidence`. -/
structure InsightWithEvidence : Type where
  insight : String
  grounding : Option String
  evidenceNodeIds : List String
deriving DecidableEq, Repr

/-- `generateInsights`: number the retrieved statements from 0, ask the
model, parse `INSIGHT:`/`GROUNDING:`/`EVIDENCE:` blocks, validate the
zero-based evidence indices (dropping non-numeric or out-of-range entries)
and map the survivors back to node ids; keep at most five insights. -/
def generateInsights (agent : PhilosopherAgent) (retrievedNodes : List ScoredMemoryNode)
    (llmCall : String → String) : List InsightWithEvidence :=
  let statements := String.intercalate "\n"
    (retrievedNodes.enum.map (fun p => toString p.1 ++ ". " ++ p.2.node.embeddingKey))
  let prompt := philosophicalInsightsPrompt agent.identity.name statements
    (jsReplaceUnderscore agent.identity.archetype)
  let response := llmCall prompt
  let insightBlocks := (jsSplitNumDot response).filter (fun s => decide (jsTrim s ≠ ""))
  let insights := insightBlocks.filterMap (fun block =>
    match lazyCapture "insight:".data ["grounding:".data, "evidence:".data] block.data with
    | none => none
    | some insightCap =>
      let groundingCap := lazyCapture "grounding:".data ["evidence:".data] block.data
      let evidenceCap := lazyCapture "evidence:".data [] block.data
      let evidenceIndices : List Int :=
        match evidenceCap with
        | some ev =>
          (((jsSplitOnChar ',' ev.data).map
              (fun l => jsParseInt (jsTrim ⟨l⟩))).filterMap id).filter
            (fun n => decide (0 ≤ n ∧ n < (retrievedNodes.length : Int)))
        | none => []
      some { insight := jsTrim insightCap,
             grounding := groundingCap.map jsTrim,
             -- every surviving index is in range, so the lookup never fails
             evidenceNodeIds := evidenceIndices.filterMap
               (fun i => (retrievedNodes.get? i.toNat).map (fun sc => sc.node.id)) })
  insights.take 5

/-- The S-P-O triple recovered from a model response. -/
structure Triple : Type where
  subject : String
  predicate : String
  object : String
deriving DecidableEq, Repr

/-- The prompt of `generateTriple`. -/
def tripleGenPrompt (description : String) : String :=
  "Convert this statement into a simple Subject-Predicate-Object triple:\n\nStatement: \"" ++
  description ++
  "\"\n\nRespond in this exact format:\nSubject: [subject]\nPredicate: [predicate/verb]\nObject: [object]"

/-- `generateTriple`, with the documented fallbacks: first word of the
description / `reflects on` / the whole description. -/
def generateTriple (llmCall : String → String) (description : String) : Triple :=
  let response := llmCall (tripleGenPrompt description)
  let subjectMatch := lineCapture "subject:".data response.data
  let predicateMatch := lineCapture "predicate:".data response.data
  let objectMatch := lineCapture "object:".data response.data
  { subject := jsOrElse (subjectMatch.map jsTrim)
      ⟨(jsSplitOnChar ' ' description.data).getD 0 []⟩,
    predicate := jsOrElse (predicateMatch.map jsTrim) "reflects on",
    object := jsOrElse (objectMatch.map jsTrim) description }

/-- The `eventType` parameter of `generatePoignancy`. -/
inductive PoignancyEventType : Type
  | event
  | thought
  | chat
deriving DecidableEq, Repr

/-- The prompt of `generatePoignancy`. -/
def poignancyPrompt (agent : PhilosopherAgent) (description : String)
    (eventType : PoignancyEventType) : String :=
  let typeDescription : String :=
    match eventType with
    | .event => "observation or action"
    | .thought => "thought or reflection"
    | .chat => "conversation"
  "On the scale of 1 to 10, where 1 is purely mundane (e.g., walking around) and 10 is extremely profound (e.g., a major philosophical breakthrough), rate the likely importance of the following " ++
  typeDescription ++ " to " ++ agent.identity.name ++ ", a " ++
  jsReplaceUnderscore agent.identity.archetype ++ ":\n\n\"" ++ description ++
  "\"\n\nRating (respond with just a number 1-10):"

/-- `generatePoignancy`: the idle fast path scores 1 without consulting the
model; otherwise parse the response as an integer, clamp to `[1, 10]`, and
default to 5 when the response is not a number. -/
def generatePoignancy (agent : PhilosopherAgent) (description : String)
    (eventType : PoignancyEventType) (llmCall : String → String) : ℚ :=
  if jsIncludes description "is idle" then 1
  else
    let response := llmCall (poignancyPrompt agent description eventType)
    match jsParseInt (jsTrim response) with
    | none => 5
    | some rating => max 1 (min 10 (rating : ℚ))

/-- `runReflection`: focal points, one retrieval pass over all of them, then
per focal point with a nonempty evidence set generate insights and persist
each as a thought node with a 30-day expiration and the mapped evidence. -/
def runReflection (env : SimEnv) (agent : PhilosopherAgent) (ms : MemoryStream)
    (config : RetrievalConfigPartial := {}) :
    Except String (List MemoryNode × MemoryStream) := do
  let focalPoints := generateFocalPoints env agent ms
  let (retrieved, ms1) ←
    retrieve env.sqrtFn env.getEmbedding env.wallClock ms focalPoints config
  let result := retrieved.foldl
    (fun (acc : List MemoryNode × MemoryStream) entry =>
      let scoredNodes := entry.2
      if scoredNodes.length = 0 then acc
      else
        let insights := generateInsights agent scoredNodes env.llmCall
        insights.foldl (fun (acc2 : List MemoryNode × MemoryStream) ins =>
          let created := agent.scratch.currTime
          let expiration := created + 30 * 24 * 60 * 60 * 1000
          let triple := generateTriple env.llmCall ins.insight
          let keywords := jsSetOf [triple.subject, triple.predicate, triple.object]
          let poignancy := generatePoignancy agent ins.insight .thought env.llmCall
          let embedding := env.getEmbedding ins.insight
          let (node, ms') := acc2.2.addThought created (some expiration)
            triple.subject triple.predicate triple.object ins.insight keywords
            poignancy (ins.insight, embedding) ins.evidenceNodeIds
          (acc2.1 ++ [node], ms')) acc)
    ([], ms1)
  return result

/-! ### Agent controller (src/lib/agents/index.ts) -/

/-- An `AgentController` instance: the agent record and its memory stream. -/
structure AgentCtl : Type where
  agent : PhilosopherAgent
  memoryStream : MemoryStream
deriving DecidableEq, Repr

/-- `AgentController.observe`: build triple, poignancy and embedding, append
an event with a one-day expiration, then update the reflection counter by the
event's poignancy. -/
def observe (env : SimEnv) (ctl : AgentCtl) (description : String) :
    MemoryNode × AgentCtl :=
  let created := ctl.agent.scratch.currTime
  let expiration := created + 24 * 60 * 60 * 1000
  let triple := generateTriple env.llmCall description
  let poignancy := generatePoignancy ctl.agent description .event env.llmCall
  let embedding := env.getEmbedding description
  let (node, ms') := ctl.memoryStream.addEvent created (some expiration)
    triple.subject triple.predicate triple.object description
    (jsSetOf [triple.subject, triple.predicate, triple.object]) poignancy
    (description, embedding)
  let agent' := updateReflectionCounter ctl.agent poignancy
  (node, { agent := agent', memoryStream := ms' })

/-- `AgentController.citeSource`: same pipeline but writes a `source` node;
no expiration and no reflection-counter update. -/
def citeSource (env : SimEnv) (ctl : AgentCtl)
    (sourceId passage interpretation : String) : MemoryNode × AgentCtl :=
  let created := ctl.agent.scratch.currTime
  let triple := generateTriple env.llmCall interpretation
  let poignancy := generatePoignancy ctl.agent interpretation .thought env.llmCall
  let embedding := env.getEmbedding interpretation
  let (node, ms') := ctl.memoryStream.addSource created sourceId passage
    triple.subject triple.predicate triple.object interpretation
    (jsSetOf [triple.subject, triple.predicate, triple.object]) poignancy
    (interpretation, embedding)
  (node, { agent := ctl.agent, memoryStream := ms' })

/-- `AgentController.maybeReflect`: no-op when the trigger has not fired;
otherwise run the reflection engine, reset the counters, cache the three
most recent insights, and return the new thoughts. -/
def maybeReflect (env : SimEnv) (ctl : AgentCtl) :
    Except String (List MemoryNode × AgentCtl) :=
  if !(shouldReflect ctl.agent) then .ok ([], ctl)
  else
    match runReflection env ctl.agent ctl.memoryStream with
    | .error e => .error e
    | .ok (newThoughts, ms') =>
      let agent1 := resetReflectionCounter ctl.agent
      let agent2 :=
        { agent1 with
          scratch.recentInsights := (newThoughts.take 3).map (·.description) }
      .ok (newThoughts, { agent := agent2, memoryStream := ms' })

/-! ### Dialogue manager (src/lib/dialogue/index.ts): rhetorical move
classification -/

/-- The closed set of rhetorical moves (`DialogueTurn['rhetoricMove']`). -/
inductive RhetoricMove : Type
  | thesis
  | antithesis
  | synthesis
  | question
  | objection
  | clarification
  | evidence
  | concession
deriving DecidableEq, Repr

/-- `validMoves`, in source order, paired with the label text that
`includes` is tested against. -/
def validMovesList : List (RhetoricMove × String) :=
  [(.thesis, "thesis"), (.antithesis, "antithesis"), (.synthesis, "synthesis"),
   (.question, "question"), (.objection, "objection"),
   (.clarification, "clarification"), (.evidence, "evidence"),
   (.concession, "concession")]

/-- `DialogueManager.parseRhetoricMove`: lower-case the trimmed response and
return the first valid move whose label occurs as a substring, defaulting to
`clarification`. -/
def parseRhetoricMove (response : String) : RhetoricMove :=
  let move := jsToLowerCase (jsTrim response)
  match validMovesList.find? (fun p => jsIncludes move p.2) with
  | some p => p.1
  | none => .clarification

/-! ### Support lemmas -/

theorem jsIncludes_infix_iff (s sub : String) :
    jsIncludes s sub = true ↔ sub.data <:+: s.data := by
  unfold jsIncludes
  rw [List.any_eq_true]
  constructor
  · rintro ⟨t, ht, hpre⟩
    rw [List.mem_tails _ _] at ht
    rw [List.isPrefixOf_iff_prefix] at hpre
    exact List.infix_iff_prefix_suffix.mpr ⟨t, hpre, ht⟩
  · intro h
    rcases List.infix_iff_prefix_suffix.mp h with ⟨t, hpre, hsuf⟩
    exact ⟨t, (List.mem_tails _ _).mpr hsuf, List.isPrefixOf_iff_prefix.mpr hpre⟩

/-! ### Claim theorems -/

/-- C10: `retrieve` excludes from the candidate pool exactly those memory
nodes whose `embeddingKey` contains the substring `idle` anywhere
(case-sensitively); consequently any node whose `embeddingKey` contains a
word such as `idleness` is excluded from embedding-based retrieval even when
its triple is not the degenerate idle placeholder. -/
theorem retrievalPool_excludes_idle :
    (∀ (ms : MemoryStream) (node : MemoryNode),
      node ∈ retrievalPool ms ↔
        node ∈ ms.getAllMemoriesWithSources ∧
          jsIncludes node.embeddingKey "idle" = false) ∧
    (∀ node : MemoryNode, jsIncludes node.embeddingKey "idleness" = true →
      jsIncludes node.embeddingKey "idle" = true) := by
  constructor
  · intro ms node
    unfold retrievalPool
    rw [List.mem_filter]
    constructor
    · rintro ⟨hmem, hflt⟩
      refine ⟨hmem, ?_⟩
      simpa using hflt
    · rintro ⟨hmem, hflt⟩
      refine ⟨hmem, ?_⟩
      simpa using hflt
  · intro node h
    rw [jsIncludes_infix_iff] at h ⊢
    have hsub : ("idle".data : List Char) <:+: "idleness".data := by decide
    exact hsub.trans h

/-- C10 witness: a node whose key merely mentions `idleness` is dropped from
the pool. -/
theorem retrievalPool_excludes_idle_witness :
    jsIncludes "a note on idleness" "idleness" = true ∧
    jsIncludes "a note on idleness" "idle" = true := by
  constructor
  · decide
  · exact retrievalPool_excludes_idle.2
      { id := "node_1", nodeCount := 1, typeCount := 1, type := .event,
        depth := 0, created := 0, expiration := none, lastAccessed := 0,
        subject := "s", predicate := "p", object := "o", description := "d",
        embeddingKey := "a note on idleness", poignancy := 5,
        keywords := [], evidence := [] }
      (by decide)

/-- C8 counterexample: the verbatim classifier response `antithesis` is
classified as `thesis` (the substring scan hits `thesis` first), not as
`antithesis`, contradicting the claim that an exact label maps to itself. -/
theorem parseRhetoricMove_antithesis_counterexample :
    parseRhetoricMove "antithesis" = RhetoricMove.thesis ∧
    RhetoricMove.thesis ≠ RhetoricMove.antithesis := by
  constructor
  · decide
  · decide

/-- C8 (amended): every classified move lies in the closed eight-element
set; a response that is exactly one of the eight labels (in any letter case)
is classified as the first label in the fixed scan order
(thesis, antithesis, synthesis, question, objection, clarification,
evidence, concession) occurring in it as a substring — so `antithesis` and
`synthesis` map to `thesis`, and the other six labels map to themselves —
and a response containing none of the labels is classified as
`clarification`. -/
theorem parseRhetoricMove_amended :
    (∀ response : String,
      parseRhetoricMove response ∈ validMovesList.map (·.1)) ∧
    (∀ response : String,
      (jsToLowerCase (jsTrim response) = "thesis" →
        parseRhetoricMove response = .thesis) ∧
      (jsToLowerCase (jsTrim response) = "antithesis" →
        parseRhetoricMove response = .thesis) ∧
      (jsToLowerCase (jsTrim response) = "synthesis" →
        parseRhetoricMove response = .thesis) ∧
      (jsToLowerCase (jsTrim response) = "question" →
        parseRhetoricMove response = .question) ∧
      (jsToLowerCase (jsTrim response) = "objection" →
        parseRhetoricMove response = .objection) ∧
      (jsToLowerCase (jsTrim response) = "clarification" →
        parseRhetoricMove response = .clarification) ∧
      (jsToLowerCase (jsTrim response) = "evidence" →
        parseRhetoricMove response = .evidence) ∧
      (jsToLowerCase (jsTrim response) = "concession" →
        parseRhetoricMove response = .concession)) ∧
    (∀ response : String,
      (∀ pair ∈ validMovesList,
        jsIncludes (jsToLowerCase (jsTrim response)) pair.2 = false) →
      parseRhetoricMove response = .clarification) := by
  refine ⟨?_, ?_, ?_⟩
  · intro response
    show (match validMovesList.find?
        (fun p => jsIncludes (jsToLowerCase (jsTrim response)) p.2) with
      | some p => p.1
      | none => RhetoricMove.clarification) ∈ validMovesList.map (·.1)
    cases hfind : validMovesList.find?
        (fun p => jsIncludes (jsToLowerCase (jsTrim response)) p.2) with
    | none => decide
    | some p =>
      have hmem := List.mem_of_find?_eq_some hfind
      exact List.mem_map.mpr ⟨p, hmem, rfl⟩
  · intro response
    refine ⟨?_, ?_, ?_, ?_, ?_, ?_, ?_, ?_⟩ <;>
      { intro h
        show (match validMovesList.find?
            (fun p => jsIncludes (jsToLowerCase (jsTrim response)) p.2) with
          | some p => p.1
          | none => RhetoricMove.clarification) = _
        rw [h]
        decide }
  · intro response h
    show (match validMovesList.find?
        (fun p => jsIncludes (jsToLowerCase (jsTrim response)) p.2) with
      | some p => p.1
      | none => RhetoricMove.clarification) = RhetoricMove.clarification
    have hnone : validMovesList.find?
        (fun p => jsIncludes (jsToLowerCase (jsTrim response)) p.2) = none := by
      rw [List.find?_eq_none]
      intro p hp
      simp [h p hp]
    rw [hnone]

/-- C8 witness: a cased exact label goes to the scan's first hit, and an
unrelated response defaults to clarification. -/
theorem parseRhetoricMove_amended_witness :
    parseRhetoricMove "Antithesis " = RhetoricMove.thesis ∧
    parseRhetoricMove "hmm, who knows" = RhetoricMove.clarification :=
  ⟨(parseRhetoricMove_amended.2.1 "Antithesis ").2.1 (by decide),
   parseRhetoricMove_amended.2.2 "hmm, who knows" (by decide)⟩

/-- C6: `generatePoignancy` returns exactly 1 — without consulting the
language model, so the result is the same for every gateway — whenever the
description contains the idle marker `is idle`; otherwise it parses the model
response as an integer and clamps it into `[1, 10]`, returning 5 when the
response does not parse as an integer. -/
theorem generatePoignancy_spec :
    ∀ (agent : PhilosopherAgent) (description : String)
      (eventType : PoignancyEventType) (llmCall : String → String),
    (jsIncludes description "is idle" = true →
      generatePoignancy agent description eventType llmCall = 1 ∧
      ∀ llmCall' : String → String,
        generatePoignancy agent description eventType llmCall'
          = generatePoignancy agent description eventType llmCall) ∧
    (jsIncludes description "is idle" = false →
      generatePoignancy agent description eventType llmCall =
        match jsParseInt (jsTrim (llmCall (poignancyPrompt agent description eventType))) with
        | none => 5
        | some rating => max 1 (min 10 (rating : ℚ))) := by
  intro agent description eventType llmCall
  constructor
  · intro h
    constructor
    · unfold generatePoignancy
      rw [if_pos h]
    · intro llmCall'
      unfold generatePoignancy
      rw [if_pos h, if_pos h]
  · intro h
    unfold generatePoignancy
    rw [if_neg (by simp [h])]

/-- C6 witness: the idle fast path, a parsed rating, a clamped rating and
the parse-failure default on concrete inputs. -/
theorem generatePoignancy_spec_witness :
    generatePoignancy ⟨"a1", ⟨"Cornelius Drebbel", "alchemist"⟩, ⟨0, 150, 150, 0, []⟩⟩
      "The agent is idle" .event (fun _ => "9") = 1 ∧
    generatePoignancy ⟨"a1", ⟨"Cornelius Drebbel", "alchemist"⟩, ⟨0, 150, 150, 0, []⟩⟩
      "a vision of unity" .event (fun _ => "7") = 7 ∧
    generatePoignancy ⟨"a1", ⟨"Cornelius Drebbel", "alchemist"⟩, ⟨0, 150, 150, 0, []⟩⟩
      "a vision of unity" .event (fun _ => "42") = 10 ∧
    generatePoignancy ⟨"a1", ⟨"Cornelius Drebbel", "alchemist"⟩, ⟨0, 150, 150, 0, []⟩⟩
      "a vision of unity" .event (fun _ => "profound") = 5 := by
  refine ⟨((generatePoignancy_spec _ _ _ _).1 (by decide)).1, ?_, ?_, ?_⟩ <;>
    { rw [(generatePoignancy_spec _ _ _ _).2 (by decide)]
      decide }

/-- C9: `citeSource` leaves the agent record — in particular the reflection
counters `importanceTriggerCurr` and `importanceEleN` — untouched, and the
node it creates is a `source` node with a null expiration; `observe`, by
contrast, decrements the trigger counter by the new event's poignancy and
increments the element count. -/
theorem citeSource_frame_spec :
    ∀ (env : SimEnv) (ctl : AgentCtl) (sourceId passage interpretation : String),
    (citeSource env ctl sourceId passage interpretation).2.agent = ctl.agent ∧
    (citeSource env ctl sourceId passage interpretation).2.agent.scratch.importanceTriggerCurr
      = ctl.agent.scratch.importanceTriggerCurr ∧
    (citeSource env ctl sourceId passage interpretation).2.agent.scratch.importanceEleN
      = ctl.agent.scratch.importanceEleN ∧
    (citeSource env ctl sourceId passage interpretation).1.type = .source ∧
    (citeSource env ctl sourceId passage interpretation).1.expiration = none ∧
    (∀ description : String,
      (observe env ctl description).2.agent.scratch.importanceTriggerCurr
        = ctl.agent.scratch.importanceTriggerCurr - (observe env ctl description).1.poignancy ∧
      (observe env ctl description).2.agent.scratch.importanceEleN
        = ctl.agent.scratch.importanceEleN + 1) := by
  intro env ctl sourceId passage interpretation
  refine ⟨rfl, rfl, rfl, rfl, rfl, ?_⟩
  intro description
  exact ⟨rfl, rfl⟩

/-- The reflection counter after a sequence of updates. -/
theorem foldl_updateReflectionCounter_curr (ps : List ℚ) :
    ∀ (a : PhilosopherAgent),
      (ps.foldl updateReflectionCounter a).scratch.importanceTriggerCurr =
        a.scratch.importanceTriggerCurr - ps.sum := by
  induction ps with
  | nil => intro a; simp
  | cons p rest ih =>
    intro a
    rw [List.foldl_cons, ih]
    show a.scratch.importanceTriggerCurr - p - rest.sum = _
    rw [List.sum_cons]
    ring

/-- C2: starting from `importanceTriggerCurr = importanceTriggerMax = 150`,
after any sequence of `updateReflectionCounter` calls with poignancies
`p₁..pₙ`, `shouldReflect` holds exactly when `p₁+...+pₙ ≥ 150`; and whenever
`maybeReflect` runs to completion while triggered, `importanceTriggerCurr`
is restored to `importanceTriggerMax` and `importanceEleN` to 0 — even if
the reflection produced zero new thought nodes. -/
theorem reflection_trigger_spec :
    ∀ (a0 : PhilosopherAgent) (ps : List ℚ),
    a0.scratch.importanceTriggerCurr = 150 →
    a0.scratch.importanceTriggerMax = 150 →
    (shouldReflect (ps.foldl updateReflectionCounter a0) = true ↔ 150 ≤ ps.sum) ∧
    (∀ (env : SimEnv) (ctl : AgentCtl) (thoughts : List MemoryNode) (ctl' : AgentCtl),
      shouldReflect ctl.agent = true →
      maybeReflect env ctl = .ok (thoughts, ctl') →
      ctl'.agent.scratch.importanceTriggerCurr = ctl.agent.scratch.importanceTriggerMax ∧
      ctl'.agent.scratch.importanceEleN = 0) := by
  intro a0 ps h1 _h2
  constructor
  · unfold shouldReflect
    rw [foldl_updateReflectionCounter_curr, h1]
    constructor
    · intro h
      have := of_decide_eq_true h
      linarith
    · intro h
      apply decide_eq_true
      linarith
  · intro env ctl thoughts ctl' htrig hok
    unfold maybeReflect at hok
    rw [htrig] at hok
    simp only [Bool.not_true, Bool.false_eq_true, if_false] at hok
    cases hrun : runReflection env ctl.agent ctl.memoryStream with
    | error e =>
      rw [hrun] at hok
      cases hok
    | ok pr =>
      rw [hrun] at hok
      cases pr with
      | mk newThoughts ms' =>
        simp only [Except.ok.injEq, Prod.mk.injEq] at hok
        rw [← hok.2]
        exact ⟨rfl, rfl⟩

/-- C2 witness: poignancies 100 and 60 trip the trigger (sum ≥ 150), and a
triggered agent that reflects to zero insights still has its counters
restored. -/
theorem reflection_trigger_spec_witness :
    shouldReflect (([100, 60] : List ℚ).foldl updateReflectionCounter
      ⟨"a1", ⟨"Cornelius Drebbel", "alchemist"⟩, ⟨0, 150, 150, 0, []⟩⟩) = true ∧
    ((maybeReflect
        { llmCall := fun _ => "", getEmbedding := fun _ => [], sqrtFn := fun q => q,
          wallClock := 0 }
        ⟨⟨"a1", ⟨"Cornelius Drebbel", "alchemist"⟩, ⟨0, 150, -10, 2, []⟩⟩,
          MemoryStream.empty⟩).map
      (fun p => (p.2.agent.scratch.importanceTriggerCurr,
        p.2.agent.scratch.importanceEleN))) = .ok (150, 0) := by
  constructor
  · exact (reflection_trigger_spec
      ⟨"a1", ⟨"Cornelius Drebbel", "alchemist"⟩, ⟨0, 150, 150, 0, []⟩⟩
      [100, 60] rfl rfl).1.mpr (by norm_num)
  · have hsome : (maybeReflect
        { llmCall := fun _ => "", getEmbedding := fun _ => [], sqrtFn := fun q => q,
          wallClock := 0 }
        ⟨⟨"a1", ⟨"Cornelius Drebbel", "alchemist"⟩, ⟨0, 150, -10, 2, []⟩⟩,
          MemoryStream.empty⟩).toOption.isSome = true := by decide
    cases hmr : maybeReflect
        { llmCall := fun _ => "", getEmbedding := fun _ => [], sqrtFn := fun q => q,
          wallClock := 0 }
        ⟨⟨"a1", ⟨"Cornelius Drebbel", "alchemist"⟩, ⟨0, 150, -10, 2, []⟩⟩,
          MemoryStream.empty⟩ with
    | error e =>
      rw [hmr] at hsome
      simp [Except.toOption] at hsome
    | ok pr =>
      have hres := (reflection_trigger_spec
          ⟨"a1", ⟨"Cornelius Drebbel", "alchemist"⟩, ⟨0, 150, 150, 0, []⟩⟩
          [] rfl rfl).2
        { llmCall := fun _ => "", getEmbedding := fun _ => [], sqrtFn := fun q => q,
          wallClock := 0 }
        ⟨⟨"a1", ⟨"Cornelius Drebbel", "alchemist"⟩, ⟨0, 150, -10, 2, []⟩⟩,
          MemoryStream.empty⟩
        pr.1 pr.2 (by decide) (by exact hmr)
      simp only [Except.map, Except.ok.injEq, Prod.mk.injEq]
      exact ⟨hres.1, hres.2⟩

/-- `extractRecency` written out as an explicit rank-score table. -/
theorem extractRecency_eq_pairs (nodes : List MemoryNode) (decay : ℚ)
    (hnd : (nodes.map (·.id)).Nodup) :
    extractRecency nodes decay =
      (List.insertionSort (fun a b => b.lastAccessed ≤ a.lastAccessed) nodes).enum.map
        (fun p => (p.2.id, decay ^ p.1)) := by
  unfold extractRecency
  have hfold :
      (List.insertionSort (fun a b => b.lastAccessed ≤ a.lastAccessed) nodes).enum.foldl
        (fun scores p => mapSet scores p.2.id (decay ^ p.1)) ([] : List (String × ℚ))
      = ((List.insertionSort (fun a b => b.lastAccessed ≤ a.lastAccessed) nodes).enum.map
          (fun p => (p.2.id, decay ^ p.1))).foldl
            (fun scores q => mapSet scores q.1 q.2) [] := by
    rw [List.foldl_map]
  rw [hfold]
  apply foldl_mapSet_eq
  have hkeys :
      ((List.insertionSort (fun a b => b.lastAccessed ≤ a.lastAccessed) nodes).enum.map
          (fun p => (p.2.id, decay ^ p.1))).map (·.1)
        = (List.insertionSort (fun a b => b.lastAccessed ≤ a.lastAccessed) nodes).map (·.id) := by
    rw [List.map_map]
    have : ((fun q : String × ℚ => q.1) ∘ fun p : Nat × MemoryNode => (p.2.id, decay ^ p.1))
        = (fun n : MemoryNode => n.id) ∘ Prod.snd := rfl
    rw [this, ← List.map_map, List.enum_map_snd]
  rw [hkeys]
  have hperm : List.Perm
      ((List.insertionSort (fun a b => b.lastAccessed ≤ a.lastAccessed) nodes).map (·.id))
      (nodes.map (·.id)) :=
    (List.perm_insertionSort _ nodes).map _
  exact hnd.perm hperm.symm

/-- C5: on a non-empty node list with pairwise-distinct `lastAccessed`
values (ids are unique in any store) and a decay strictly between 0 and 1,
`extractRecency` assigns the node of descending-recency rank `i` the score
`decay ^ i`; rank 0 is the most recently accessed node and scores exactly 1
before normalization, and the assigned scores strictly decrease with rank. -/
theorem extractRecency_spec :
    ∀ (nodes : List MemoryNode) (decay : ℚ),
    nodes ≠ [] →
    (nodes.map (·.id)).Nodup →
    List.Pairwise (fun a b => a.lastAccessed ≠ b.lastAccessed) nodes →
    0 < decay → decay < 1 →
    (∀ i (hi : i < (List.insertionSort (fun a b => b.lastAccessed ≤ a.lastAccessed) nodes).length),
      mapGet (extractRecency nodes decay)
        ((List.insertionSort (fun a b => b.lastAccessed ≤ a.lastAccessed) nodes).get ⟨i, hi⟩).id
        = some (decay ^ i)) ∧
    (∀ hd ∈ (List.insertionSort (fun a b => b.lastAccessed ≤ a.lastAccessed) nodes).head?,
      (∀ n ∈ nodes, n.lastAccessed ≤ hd.lastAccessed) ∧
      mapGet (extractRecency nodes decay) hd.id = some (1 : ℚ)) ∧
    (∀ i j (hi : i < (List.insertionSort (fun a b => b.lastAccessed ≤ a.lastAccessed) nodes).length)
        (hj : j < (List.insertionSort (fun a b => b.lastAccessed ≤ a.lastAccessed) nodes).length),
      i < j →
      ∃ si sj : ℚ,
        mapGet (extractRecency nodes decay)
          ((List.insertionSort (fun a b => b.lastAccessed ≤ a.lastAccessed) nodes).get ⟨i, hi⟩).id
          = some si ∧
        mapGet (extractRecency nodes decay)
          ((List.insertionSort (fun a b => b.lastAccessed ≤ a.lastAccessed) nodes).get ⟨j, hj⟩).id
          = some sj ∧
        sj < si) := by
  intro nodes decay hne hnd _hdistinct hd0 hd1
  have hrank : ∀ i (hi : i < (List.insertionSort (fun a b => b.lastAccessed ≤ a.lastAccessed) nodes).length),
      mapGet (extractRecency nodes decay)
        ((List.insertionSort (fun a b => b.lastAccessed ≤ a.lastAccessed) nodes).get ⟨i, hi⟩).id
        = some (decay ^ i) := by
    intro i hi
    rw [extractRecency_eq_pairs nodes decay hnd]
    have hkeysnd :
        (((List.insertionSort (fun a b => b.lastAccessed ≤ a.lastAccessed) nodes).enum.map
            (fun p => (p.2.id, decay ^ p.1))).map (·.1)).Nodup := by
      rw [List.map_map]
      have : ((fun q : String × ℚ => q.1) ∘ fun p : Nat × MemoryNode => (p.2.id, decay ^ p.1))
          = (fun n : MemoryNode => n.id) ∘ Prod.snd := rfl
      rw [this, ← List.map_map, List.enum_map_snd]
      exact hnd.perm ((List.perm_insertionSort _ nodes).map _).symm
    have hmem :
        (((List.insertionSort (fun a b => b.lastAccessed ≤ a.lastAccessed) nodes).get ⟨i, hi⟩).id,
          decay ^ i) ∈
          (List.insertionSort (fun a b => b.lastAccessed ≤ a.lastAccessed) nodes).enum.map
            (fun p => (p.2.id, decay ^ p.1)) := by
      apply List.mem_map.mpr
      refine ⟨(i, (List.insertionSort (fun a b => b.lastAccessed ≤ a.lastAccessed) nodes).get ⟨i, hi⟩), ?_, rfl⟩
      rw [List.mk_mem_enum_iff_get?]
      exact List.get?_eq_get hi
    exact mapGet_of_nodup_mem _ hkeysnd hmem
  refine ⟨hrank, ?_, ?_⟩
  · intro hd hhd
    haveI : IsTotal MemoryNode (fun a b => b.lastAccessed ≤ a.lastAccessed) :=
      ⟨fun a b => le_total b.lastAccessed a.lastAccessed⟩
    haveI : IsTrans MemoryNode (fun a b => b.lastAccessed ≤ a.lastAccessed) :=
      ⟨fun _ _ _ hab hbc => le_trans hbc hab⟩
    have hsorted := List.sorted_insertionSort
      (fun a b => b.lastAccessed ≤ a.lastAccessed) nodes
    cases hs : List.insertionSort (fun a b => b.lastAccessed ≤ a.lastAccessed) nodes with
    | nil =>
      rw [hs] at hhd
      cases hhd
    | cons hd0 tail =>
      rw [hs] at hhd
      have hhd0 : hd = hd0 := by
        have := hhd
        simp [List.head?] at this
        exact this.symm
      subst hhd0
      constructor
      · intro n hn
        have hnsorted : n ∈ List.insertionSort
            (fun a b => b.lastAccessed ≤ a.lastAccessed) nodes :=
          (List.mem_insertionSort _).mpr hn
        rw [hs] at hnsorted
        rcases List.mem_cons.mp hnsorted with h | h
        · rw [h]
        · rw [hs] at hsorted
          exact (List.pairwise_cons.mp hsorted).1 n h
      · have h0 : 0 < (List.insertionSort
            (fun a b => b.lastAccessed ≤ a.lastAccessed) nodes).length := by
          rw [hs]; simp
        have := hrank 0 h0
        have hget0 : (List.insertionSort
            (fun a b => b.lastAccessed ≤ a.lastAccessed) nodes).get ⟨0, h0⟩ = hd := by
          have := List.get_of_eq hs ⟨0, h0⟩
          simpa using this
        rw [hget0] at this
        simpa using this
  · intro i j hi hj hij
    exact ⟨decay ^ i, decay ^ j, hrank i hi, hrank j hj,
      pow_lt_pow_right_of_lt_one₀ hd0 hd1 hij⟩

/-- C5 witness: two nodes with distinct access times and decay 0.99 — the
most recent scores exactly 1, the other scores 0.99. -/
theorem extractRecency_spec_witness :
    mapGet (extractRecency
      [{ id := "node_1", nodeCount := 1, typeCount := 1, type := .event,
         depth := 0, created := 50, expiration := none, lastAccessed := 50,
         subject := "s", predicate := "p", object := "o", description := "d1",
         embeddingKey := "k1", poignancy := 5, keywords := [], evidence := [] },
       { id := "node_2", nodeCount := 2, typeCount := 2, type := .event,
         depth := 0, created := 200, expiration := none, lastAccessed := 200,
         subject := "s", predicate := "p", object := "o", description := "d2",
         embeddingKey := "k2", poignancy := 5, keywords := [], evidence := [] }]
      (99/100)) "node_2" = some 1 ∧
    mapGet (extractRecency
      [{ id := "node_1", nodeCount := 1, typeCount := 1, type := .event,
         depth := 0, created := 50, expiration := none, lastAccessed := 50,
         subject := "s", predicate := "p", object := "o", description := "d1",
         embeddingKey := "k1", poignancy := 5, keywords := [], evidence := [] },
       { id := "node_2", nodeCount := 2, typeCount := 2, type := .event,
         depth := 0, created := 200, expiration := none, lastAccessed := 200,
         subject := "s", predicate := "p", object := "o", description := "d2",
         embeddingKey := "k2", poignancy := 5, keywords := [], evidence := [] }]
      (99/100)) "node_1" = some (99/100) := by
  have h := extractRecency_spec
    [{ id := "node_1", nodeCount := 1, typeCount := 1, type := .event,
       depth := 0, created := 50, expiration := none, lastAccessed := 50,
       subject := "s", predicate := "p", object := "o", description := "d1",
       embeddingKey := "k1", poignancy := 5, keywords := [], evidence := [] },
     { id := "node_2", nodeCount := 2, typeCount := 2, type := .event,
       depth := 0, created := 200, expiration := none, lastAccessed := 200,
       subject := "s", predicate := "p", object := "o", description := "d2",
       embeddingKey := "k2", poignancy := 5, keywords := [], evidence := [] }]
    (99/100) (by decide) (by decide) (by decide) (by norm_num) (by norm_num)
  constructor
  · have h0 := h.1 0 (by decide)
    simpa using h0
  · have h1 := h.1 1 (by decide)
    simpa using h1

/-- C3: a thought's depth is one more than the greatest depth of the nodes
named in its (resolvable) evidence list, and 1 when the list is empty; every
node created by `addEvent`, `addChat` or `addSource` has depth 0. -/
theorem addThought_depth_spec :
    ∀ (ms : MemoryStream) (created : Int) (expiration : Option Int)
      (subject predicate object description : String) (keywords : List String)
      (poignancy : ℚ) (embeddingPair : String × List ℚ) (evidence : List String)
      (sourceId sourcePassage : String),
    (evidence ≠ [] →
      (∀ id ∈ evidence, (ms.getNode id).isSome = true) →
      (ms.addThought created expiration subject predicate object description
          keywords poignancy embeddingPair evidence).1.depth
        = 1 + (evidence.map
            (fun id => ((ms.getNode id).map (·.depth)).getD 0)).foldr max 0) ∧
    (evidence = [] →
      (ms.addThought created expiration subject predicate object description
          keywords poignancy embeddingPair evidence).1.depth = 1) ∧
    (ms.addEvent created expiration subject predicate object description
        keywords poignancy embeddingPair evidence).1.depth = 0 ∧
    (ms.addChat created expiration subject predicate object description
        keywords poignancy embeddingPair evidence).1.depth = 0 ∧
    (ms.addSource created sourceId sourcePassage subject predicate object
        description keywords poignancy embeddingPair).1.depth = 0 := by
  intro ms created expiration subject predicate object description keywords
    poignancy embeddingPair evidence sourceId sourcePassage
  refine ⟨?_, ?_, rfl, rfl, rfl⟩
  · intro hne _hres
    show (if evidence.length > 0 then
        (evidence.map (fun id => ((mapGet ms.idToNode id).map (·.depth)).getD 0)).foldr
          max 0 + 1
      else 1) = _
    rw [if_pos (by
      cases evidence with
      | nil => exact absurd rfl hne
      | cons e rest => simp)]
    rw [Nat.add_comm]
    rfl
  · intro hnil
    subst hnil
    rfl

/-- A store holding an event of depth 0 (`node_1`), a thought of depth 1
(`node_2`) and a thought of depth 2 (`node_3`), for the depth-invariant
witness. -/
def c3Store : MemoryStream :=
  let m1 := (MemoryStream.empty.addEvent 10 (some 20) "A" "reads" "B" "A reads B"
    ["a"] 5 ("A reads B", [1])).2
  let m2 := (m1.addThought 11 none "A" "ponders" "B" "A ponders B"
    ["a"] 6 ("A ponders B", [1]) ["node_1"]).2
  (m2.addThought 12 none "A" "doubts" "B" "A doubts B"
    ["a"] 6 ("A doubts B", [1]) ["node_2"]).2

/-- C3 witness: a thought citing evidence of depths 0 and 2 gets depth 3,
and sibling event/chat/source nodes get depth 0. -/
theorem addThought_depth_spec_witness :
    (c3Store.addThought 13 none "A" "concludes" "B" "A concludes B"
      ["a"] 7 ("A concludes B", [1]) ["node_1", "node_3"]).1.depth = 3 ∧
    (c3Store.addEvent 13 none "A" "sees" "B" "A sees B"
      ["a"] 7 ("A sees B", [1]) []).1.depth = 0 := by
  constructor
  · have h := (addThought_depth_spec c3Store 13 none "A" "concludes" "B"
      "A concludes B" ["a"] 7 ("A concludes B", [1]) ["node_1", "node_3"]
      "" "").1 (by decide) (by decide)
    rw [h]
    decide
  · exact (addThought_depth_spec c3Store 13 none "A" "sees" "B" "A sees B"
      ["a"] 7 ("A sees B", [1]) [] "" "").2.2.1

/-- Lookup after a key-targeted value update in the map model. -/
theorem mapGet_map_entry_upd {β : Type} (m : List (String × β)) (k : String)
    (f : β → β) (j : String) :
    mapGet (m.map (fun p => if p.1 == k then (p.1, f p.2) else p)) j
      = if j = k then (mapGet m j).map f else mapGet m j := by
  unfold mapGet
  rw [List.find?_map]
  have hpred : ((fun p : String × β => p.1 == j) ∘
        fun p : String × β => if p.1 == k then (p.1, f p.2) else p)
      = fun p : String × β => p.1 == j := by
    funext q
    by_cases hq : q.1 = k <;> simp [Function.comp, hq]
  rw [hpred]
  cases hfind : m.find? (fun p : String × β => p.1 == j) with
  | none => by_cases hj : j = k <;> simp [hj]
  | some q =>
    have hqj := List.find?_some hfind
    simp only [beq_iff_eq] at hqj
    by_cases hj : j = k
    · subst hj
      simp [hqj]
    · have hqk : ¬ q.1 = k := by rw [hqj]; exact hj
      simp [hj, hqk]

/-- `touchNode` through `getNode`: the targeted node's `lastAccessed` is
replaced, every other lookup is unchanged. -/
theorem getNode_touchNode (ms : MemoryStream) (nodeId : String) (t : Int) (j : String) :
    (ms.touchNode nodeId t).getNode j =
      if j = nodeId then (ms.getNode j).map (fun n => { n with lastAccessed := t })
      else ms.getNode j := by
  unfold MemoryStream.touchNode
  cases hget : mapGet ms.idToNode nodeId with
  | none =>
    by_cases hj : j = nodeId
    · subst hj
      rw [if_pos rfl]
      show ms.getNode j = (ms.getNode j).map _
      unfold MemoryStream.getNode
      rw [hget]
      rfl
    · rw [if_neg hj]
  | some n0 =>
    show mapGet (ms.idToNode.map (fun p =>
        if p.1 == nodeId then (p.1, { p.2 with lastAccessed := t }) else p)) j = _
    exact mapGet_map_entry_upd ms.idToNode nodeId
      (fun n => { n with lastAccessed := t }) j

/-- Once a node's `lastAccessed` is `t`, further touches with the same time
stamp keep it at `t`. -/
theorem touch_foldl_keep (ids : List String) (t : Int) :
    ∀ (ms : MemoryStream) (j : String),
    (ms.getNode j).map (·.lastAccessed) = some t →
    ((ids.foldl (fun s i => s.touchNode i t) ms).getNode j).map (·.lastAccessed)
      = some t := by
  induction ids with
  | nil => intro ms j h; exact h
  | cons i rest ih =>
    intro ms j h
    rw [List.foldl_cons]
    apply ih
    rw [getNode_touchNode]
    by_cases hj : j = i
    · rw [if_pos hj]
      cases hg : ms.getNode j with
      | none => rw [hg] at h; cases h
      | some n => simp
    · rw [if_neg hj]; exact h

/-- Every node whose id is in the touched list ends up with
`lastAccessed = t`. -/
theorem touch_foldl_sets (ids : List String) (t : Int) :
    ∀ (ms : MemoryStream) (j : String), j ∈ ids →
    (ms.getNode j).isSome = true →
    ((ids.foldl (fun s i => s.touchNode i t) ms).getNode j).map (·.lastAccessed)
      = some t := by
  induction ids with
  | nil => intro ms j h; cases h
  | cons i rest ih =>
    intro ms j hmem hsome
    rw [List.foldl_cons]
    by_cases hj : j = i
    · apply touch_foldl_keep
      rw [getNode_touchNode, if_pos hj]
      cases hg : ms.getNode j with
      | none => rw [hg] at hsome; cases hsome
      | some n => simp
    · rcases List.mem_cons.mp hmem with h | h
      · exact absurd h hj
      · apply ih _ _ h
        rw [getNode_touchNode, if_neg hj]
        exact hsome

/-- C1: a successful `retrieve` pass over one focal point with a non-empty
candidate pool returns exactly `min(maxResults, poolSize)` scored nodes,
sorted descending by the total score
`recencyWeight·recency + relevanceWeight·relevance + importanceWeight·importance`
over the normalized component scores carried in each record, and updates the
`lastAccessed` of every returned node in the store to the retrieval time. -/
theorem retrieve_topk_spec :
    ∀ (sqrtFn : ℚ → ℚ) (getEmbedding : String → List ℚ) (now : Int)
      (cfg : RetrievalConfig) (ms : MemoryStream) (focalPoint : String)
      (res : List ScoredMemoryNode) (msAfter : MemoryStream),
    retrieveOne sqrtFn getEmbedding now cfg ms focalPoint = .ok (res, msAfter) →
    retrievalPool ms ≠ [] →
    (∀ n ∈ ms.getAllMemoriesWithSources, (ms.getNode n.id).isSome = true) →
    res.length = min cfg.maxResults (retrievalPool ms).length ∧
    List.Pairwise (fun a b => b.totalScore ≤ a.totalScore) res ∧
    (∀ sc ∈ res, sc.totalScore =
        cfg.recencyWeight * sc.recencyScore + cfg.relevanceWeight * sc.relevanceScore +
          cfg.importanceWeight * sc.importanceScore) ∧
    (∀ sc ∈ res, (msAfter.getNode sc.node.id).map (·.lastAccessed) = some now) := by
  intro sqrtFn getEmbedding now cfg ms focalPoint res msAfter hok hpool hwf
  have hlen0 : ¬ (retrievalPool ms).length = 0 := by
    intro h
    exact hpool (List.length_eq_zero.mp h)
  unfold retrieveOne at hok
  rw [if_neg hlen0] at hok
  dsimp only at hok
  cases hrel : extractRelevance sqrtFn
      (List.insertionSort (fun a b => a.lastAccessed ≤ b.lastAccessed) (retrievalPool ms))
      (getEmbedding focalPoint) ms with
  | error e =>
    rw [hrel] at hok
    cases hok
  | ok relevanceScoresRaw =>
    rw [hrel] at hok
    simp only [Except.ok.injEq, Prod.mk.injEq] at hok
    obtain ⟨hres, hmsAfter⟩ := hok
    set sortedNodes :=
      List.insertionSort (fun a b => a.lastAccessed ≤ b.lastAccessed) (retrievalPool ms)
      with hsortedNodes
    set recencyScores := normalizeScores (extractRecency sortedNodes cfg.recencyDecay) 0 1
    set importanceScores := normalizeScores (extractImportance sortedNodes) 0 1
    set relevanceScores := normalizeScores relevanceScoresRaw 0 1
    set mkScored := fun (node : MemoryNode) =>
      ({ node := node,
         recencyScore := (mapGet recencyScores node.id).getD 0,
         relevanceScore := (mapGet relevanceScores node.id).getD 0,
         importanceScore := (mapGet importanceScores node.id).getD 0,
         totalScore := cfg.recencyWeight * ((mapGet recencyScores node.id).getD 0) +
           cfg.relevanceWeight * ((mapGet relevanceScores node.id).getD 0) +
           cfg.importanceWeight * ((mapGet importanceScores node.id).getD 0) }
        : ScoredMemoryNode)
      with hmkScored
    have hres' : res = (List.insertionSort (fun a b => b.totalScore ≤ a.totalScore)
        (sortedNodes.map mkScored)).take cfg.maxResults := by
      rw [← hres]
    have hmem_res : ∀ sc ∈ res, ∃ node ∈ sortedNodes, sc = mkScored node := by
      intro sc hsc
      rw [hres'] at hsc
      have h1 := List.mem_of_mem_take hsc
      have h2 := (List.mem_insertionSort _).mp h1
      rcases List.mem_map.mp h2 with ⟨node, hnode, hn⟩
      exact ⟨node, hnode, hn.symm⟩
    refine ⟨?_, ?_, ?_, ?_⟩
    · rw [hres', List.length_take, List.length_insertionSort, List.length_map,
        List.length_insertionSort]
    · haveI : IsTotal ScoredMemoryNode (fun a b => b.totalScore ≤ a.totalScore) :=
        ⟨fun a b => le_total b.totalScore a.totalScore⟩
      haveI : IsTrans ScoredMemoryNode (fun a b => b.totalScore ≤ a.totalScore) :=
        ⟨fun _ _ _ hab hbc => le_trans hbc hab⟩
      rw [hres']
      exact (List.sorted_insertionSort _ _).sublist (List.take_sublist _ _)
    · intro sc hsc
      rcases hmem_res sc hsc with ⟨node, _, hn⟩
      rw [hn]
    · intro sc hsc
      have hmem : sc.node ∈ ms.getAllMemoriesWithSources := by
        rcases hmem_res sc hsc with ⟨node, hnode, hn⟩
        have hpoolmem : node ∈ retrievalPool ms :=
          (List.mem_insertionSort _).mp hnode
        have : node ∈ ms.getAllMemoriesWithSources :=
          List.mem_of_mem_filter hpoolmem
        rw [hn]
        exact this
      have hsome := hwf sc.node hmem
      rw [← hmsAfter]
      have hfold :
          ((List.insertionSort (fun a b => b.totalScore ≤ a.totalScore)
              (sortedNodes.map mkScored)).take cfg.maxResults).foldl
            (fun s scored => s.touchNode scored.node.id now) ms
          = (((List.insertionSort (fun a b => b.totalScore ≤ a.totalScore)
              (sortedNodes.map mkScored)).take cfg.maxResults).map (·.node.id)).foldl
            (fun s i => s.touchNode i now) ms := by
        rw [List.foldl_map]
      rw [hfold]
      apply touch_foldl_sets
      · apply List.mem_map.mpr
        refine ⟨sc, ?_, rfl⟩
        rw [← hres']
        exact hsc
      · exact hsome

/-- A three-node store (event, thought, source) for the retrieval witness. -/
def c1Store : MemoryStream :=
  let m1 := (MemoryStream.empty.addEvent 100 (some 200) "A" "reads" "B" "A reads B"
    ["a"] 5 ("A reads B", [1, 0])).2
  let m2 := (m1.addThought 150 none "A" "believes" "C" "A believes C"
    ["a"] 7 ("A believes C", [0, 1]) ["node_1"]).2
  (m2.addSource 160 "bk" "passage" "A" "cites" "B" "A interprets"
    ["a"] 6 ("A interprets", [1, 1])).2

unseal Rat.mul Rat.add Rat.inv Rat.sub in
/-- C1 witness: `maxResults = 1` over a pool of three candidates returns
exactly one scored node and stamps its `lastAccessed` with the retrieval
time.  (The `unseal` makes the irreducible rational arithmetic
kernel-evaluable.) -/
theorem retrieve_topk_spec_witness :
    (retrieveOne (fun q => q) (fun _ => [1, 0]) 999
        (mergeConfig { maxResults := some 1 }) c1Store "topic").map
      (fun p => (p.1.length, (p.2.getNode "node_1").map (·.lastAccessed)))
      = .ok (1, some 999) := by
  have hsome : (retrieveOne (fun q => q) (fun _ => [1, 0]) 999
      (mergeConfig { maxResults := some 1 }) c1Store "topic").toOption.isSome = true := by
    decide
  have hids : ((retrieveOne (fun q => q) (fun _ => [1, 0]) 999
      (mergeConfig { maxResults := some 1 }) c1Store "topic").map
      (fun p => p.1.map (·.node.id))).toOption = some ["node_1"] := by
    decide
  cases hr : retrieveOne (fun q => q) (fun _ => [1, 0]) 999
      (mergeConfig { maxResults := some 1 }) c1Store "topic" with
  | error e =>
    rw [hr] at hsome
    simp [Except.toOption] at hsome
  | ok p =>
    rw [hr] at hids
    simp only [Except.map, Except.toOption, Option.some.injEq] at hids
    have h := retrieve_topk_spec (fun q => q) (fun _ => [1, 0]) 999
      (mergeConfig { maxResults := some 1 }) c1Store "topic" p.1 p.2
      (by exact hr) (by decide) (by decide)
    simp only [Except.map, Except.ok.injEq, Prod.mk.injEq]
    constructor
    · rw [h.1]
      decide
    · cases hp1 : p.1 with
      | nil =>
        rw [hp1] at hids
        cases hids
      | cons sc rest =>
        rw [hp1] at hids
        simp only [List.map_cons, List.cons.injEq] at hids
        have hscmem : sc ∈ p.1 := by
          rw [hp1]
          exact List.mem_cons_self sc rest
        have := h.2.2.2 sc hscmem
        rw [hids.1] at this
        exact this

/-! ### Store invariants for sequences of operations (claims C4 and C7) -/

/-- The nodes of a store in insertion order. -/
def nodesOf (ms : MemoryStream) : List MemoryNode :=
  ms.idToNode.map (·.2)

/-- The id-keyed pairing of a node list. -/
def pairsOf (ns : List MemoryNode) : List (String × MemoryNode) :=
  ns.map (fun n => (n.id, n))

/-- Nodes of one type in a chronological node list. -/
def filterType (t : MemoryNodeType) (ns : List MemoryNode) : List MemoryNode :=
  ns.filter (fun n => n.type = t)

/-- Count of nodes of one type. -/
def countType (ns : List MemoryNode) (t : MemoryNodeType) : Nat :=
  (filterType t ns).length

/-- The depth contributed by one evidence id against an id-keyed node list
(`idToNode.get(id)?.depth || 0`). -/
def evDepth (pairs : List (String × MemoryNode)) (id : String) : Nat :=
  ((mapGet pairs id).map (·.depth)).getD 0

/-- The depth a node must carry given the nodes inserted before it. -/
def depthSpec (n : MemoryNode) (pre : List MemoryNode) : Nat :=
  match n.type with
  | .thought =>
    if n.evidence.length > 0 then
      (n.evidence.map (evDepth (pairsOf pre))).foldr max 0 + 1
    else 1
  | _ => 0

/-- Reset a node's `lastAccessed` to its creation time — the effect
deserialization has on every node. -/
def primeNode (n : MemoryNode) : MemoryNode :=
  { n with lastAccessed := n.created }

/-- Functions that change at most the `lastAccessed` field. -/
def LastOnly (f : MemoryNode → MemoryNode) : Prop :=
  ∀ n, f n = { n with lastAccessed := (f n).lastAccessed }

/-- What must hold of a node inserted after the prefix `pre`. -/
structure NodeFits (pre : List MemoryNode) (n : MemoryNode) : Prop where
  idOk : n.id = generateNodeId (pre.length + 1)
  ncOk : n.nodeCount = pre.length + 1
  tcOk : n.typeCount = countType pre n.type + 1
  depthOk : n.depth = depthSpec n pre
  srcOk : n.type = .source → n.expiration = none ∧ n.evidence = [] ∧
    n.sourceId.isSome = true ∧ n.sourcePassage.isSome = true
  nonSrcOk : n.type ≠ .source → n.sourceId = none ∧ n.sourcePassage = none

/-- The nodes of `post`, read left to right, each fit after the nodes before
them (starting from the prefix `pre`). -/
def NodesOkFrom : List MemoryNode → List MemoryNode → Prop
  | _, [] => True
  | pre, n :: rest => NodeFits pre n ∧ NodesOkFrom (pre ++ [n]) rest

theorem nodesOkFrom_append (ys : List MemoryNode) :
    ∀ (pre xs : List MemoryNode),
    NodesOkFrom pre (xs ++ ys) ↔ NodesOkFrom pre xs ∧ NodesOkFrom (pre ++ xs) ys := by
  intro pre xs
  induction xs generalizing pre with
  | nil => simp [NodesOkFrom]
  | cons x rest ih =>
    show NodeFits pre x ∧ NodesOkFrom (pre ++ [x]) (rest ++ ys) ↔
      (NodeFits pre x ∧ NodesOkFrom (pre ++ [x]) rest) ∧ _
    rw [ih (pre ++ [x])]
    constructor
    · rintro ⟨h1, h2, h3⟩
      refine ⟨⟨h1, h2⟩, ?_⟩
      rw [List.append_assoc] at h3
      exact h3
    · rintro ⟨⟨h1, h2⟩, h3⟩
      refine ⟨h1, h2, ?_⟩
      rw [List.append_assoc]
      exact h3

/-- Every node in an `Ok` segment carries a `node_<j+1>` id with `j` at
least the prefix length and below the total length. -/
theorem nodesOkFrom_ids :
    ∀ (post pre : List MemoryNode), NodesOkFrom pre post →
    ∀ n ∈ post, ∃ j, pre.length ≤ j ∧ j < pre.length + post.length ∧
      n.id = generateNodeId (j + 1) := by
  intro post
  induction post with
  | nil => intro pre _ n hn; cases hn
  | cons x rest ih =>
    intro pre hok n hn
    obtain ⟨hfits, hrest⟩ := hok
    rcases List.mem_cons.mp hn with h | h
    · subst h
      exact ⟨pre.length, le_refl _, by simp, hfits.idOk⟩
    · rcases ih (pre ++ [x]) hrest n h with ⟨j, hj1, hj2, hj3⟩
      refine ⟨j, ?_, ?_, hj3⟩
      · simp at hj1
        omega
      · simp at hj2 ⊢
        omega

/-- Positional form: the `i`-th node of an `Ok` segment is
`node_<pre.length + i + 1>`. -/
theorem nodesOkFrom_id_get :
    ∀ (post pre : List MemoryNode), NodesOkFrom pre post →
    ∀ i (hi : i < post.length),
      (post.get ⟨i, hi⟩).id = generateNodeId (pre.length + i + 1) := by
  intro post
  induction post with
  | nil => intro pre _ i hi; cases hi
  | cons x rest ih =>
    intro pre hok i hi
    obtain ⟨hfits, hrest⟩ := hok
    cases i with
    | zero => simpa using hfits.idOk
    | succ i' =>
      have := ih (pre ++ [x]) hrest i' (by simpa using Nat.lt_of_succ_lt_succ hi)
      simp only [List.length_append, List.length_singleton] at this
      simpa [Nat.add_assoc, Nat.add_comm, Nat.add_left_comm] using this

/-- `new Set` on a duplicate-free list is the identity. -/
theorem jsSetOfCore_of_nodup :
    ∀ (fuel : Nat) (l : List String), l.Nodup → l.length ≤ fuel →
    jsSetOfCore fuel l = l := by
  intro fuel
  induction fuel with
  | zero =>
    intro l _ hlen
    rw [Nat.le_zero, List.length_eq_zero] at hlen
    subst hlen
    rfl
  | succ f ih =>
    intro l hnd hlen
    cases l with
    | nil => rfl
    | cons x xs =>
      rw [List.nodup_cons] at hnd
      have hfilter : xs.filter (fun y => y ≠ x) = xs := by
        apply List.filter_eq_self.mpr
        intro a ha
        simp only [ne_eq, decide_not, Bool.not_eq_eq_eq_not, Bool.not_true,
          decide_eq_false_iff_not]
        intro hcontra
        exact hnd.1 (hcontra ▸ ha)
      show x :: jsSetOfCore f (xs.filter (fun y => y ≠ x)) = x :: xs
      rw [hfilter, ih xs hnd.2 (by simp at hlen; omega)]

theorem jsSetOf_of_nodup (l : List String) (hnd : l.Nodup) : jsSetOf l = l :=
  jsSetOfCore_of_nodup l.length l hnd (le_refl _)

/-! ### Transport lemmas for lastAccessed-only node updates -/

theorem lastOnly_id : LastOnly (fun n => n) := fun _ => rfl

theorem pairsOf_snd (l : List MemoryNode) : (pairsOf l).map (·.2) = l := by
  unfold pairsOf
  rw [List.map_map]
  conv_rhs => rw [← List.map_id l]
  apply List.map_congr_left
  intro n _
  rfl

theorem pairsOf_append (ns : List MemoryNode) (n : MemoryNode) :
    pairsOf (ns ++ [n]) = pairsOf ns ++ [(n.id, n)] := by
  unfold pairsOf
  rw [List.map_append]
  rfl

theorem pairsOf_map_lastOnly {f : MemoryNode → MemoryNode} (hf : LastOnly f)
    (l : List MemoryNode) :
    pairsOf (l.map f) = (pairsOf l).map (fun p => (p.1, f p.2)) := by
  unfold pairsOf
  rw [List.map_map, List.map_map]
  apply List.map_congr_left
  intro n _
  show ((f n).id, f n) = (n.id, f n)
  rw [hf n]

theorem filterType_map_lastOnly {f : MemoryNode → MemoryNode} (hf : LastOnly f)
    (t : MemoryNodeType) (l : List MemoryNode) :
    filterType t (l.map f) = (filterType t l).map f := by
  unfold filterType
  rw [List.filter_map]
  congr 1
  apply List.filter_congr
  intro n _
  show decide ((f n).type = t) = decide (n.type = t)
  rw [hf n]

theorem countType_map_lastOnly {f : MemoryNode → MemoryNode} (hf : LastOnly f)
    (t : MemoryNodeType) (l : List MemoryNode) :
    countType (l.map f) t = countType l t := by
  unfold countType
  rw [filterType_map_lastOnly hf, List.length_map]

theorem evDepth_map_lastOnly {f : MemoryNode → MemoryNode} (hf : LastOnly f)
    (l : List MemoryNode) (id : String) :
    evDepth (pairsOf (l.map f)) id = evDepth (pairsOf l) id := by
  unfold evDepth
  rw [pairsOf_map_lastOnly hf, mapGet_map_value]
  cases mapGet (pairsOf l) id with
  | none => rfl
  | some n =>
    show (f n).depth = n.depth
    rw [hf n]

theorem depthSpec_map_lastOnly {f : MemoryNode → MemoryNode} (hf : LastOnly f)
    (n : MemoryNode) (l : List MemoryNode) :
    depthSpec (f n) (l.map f) = depthSpec n l := by
  have ht : (f n).type = n.type := by rw [hf n]
  have hev : (f n).evidence = n.evidence := by rw [hf n]
  unfold depthSpec
  rw [ht, hev]
  cases n.type with
  | thought =>
    by_cases hlen : n.evidence.length > 0
    · rw [if_pos hlen, if_pos hlen]
      have : n.evidence.map (evDepth (pairsOf (l.map f)))
          = n.evidence.map (evDepth (pairsOf l)) :=
        List.map_congr_left (fun id _ => evDepth_map_lastOnly hf l id)
      rw [this]
    · rw [if_neg hlen, if_neg hlen]
  | event => rfl
  | chat => rfl
  | source => rfl

theorem nodeFits_map_lastOnly {f : MemoryNode → MemoryNode} (hf : LastOnly f)
    {pre : List MemoryNode} {n : MemoryNode} (h : NodeFits pre n) :
    NodeFits (pre.map f) (f n) := by
  have hfn := hf n
  constructor
  · rw [hfn, List.length_map]
    exact h.idOk
  · rw [hfn, List.length_map]
    exact h.ncOk
  · rw [hfn, countType_map_lastOnly hf]
    exact h.tcOk
  · rw [depthSpec_map_lastOnly hf n pre, hfn]
    exact h.depthOk
  · intro hsrc
    rw [hfn] at hsrc ⊢
    exact h.srcOk hsrc
  · intro hsrc
    rw [hfn] at hsrc ⊢
    exact h.nonSrcOk hsrc

theorem nodesOkFrom_map_lastOnly {f : MemoryNode → MemoryNode} (hf : LastOnly f) :
    ∀ (post pre : List MemoryNode), NodesOkFrom pre post →
    NodesOkFrom (pre.map f) (post.map f) := by
  intro post
  induction post with
  | nil => intro pre _; trivial
  | cons x rest ih =>
    intro pre h
    obtain ⟨h1, h2⟩ := h
    refine ⟨nodeFits_map_lastOnly hf h1, ?_⟩
    have := ih (pre ++ [x]) h2
    simpa using this

/-! ### The store invariant -/

/-- The invariant every store reachable by add/touch operations satisfies:
`idToNode` pairs each node with its id, the nodes fit their positions
(ids, counters, depths, source fields), each sequential index lists its
type's nodes most-recent-first, every node's embedding key is cached, and
the cache has duplicate-free keys. -/
structure StoreInv (ms : MemoryStream) : Prop where
  keys : ms.idToNode = pairsOf (nodesOf ms)
  nodesOk : NodesOkFrom [] (nodesOf ms)
  seqE : ms.seqEvent = (filterType .event (nodesOf ms)).reverse
  seqT : ms.seqThought = (filterType .thought (nodesOf ms)).reverse
  seqC : ms.seqChat = (filterType .chat (nodesOf ms)).reverse
  seqS : ms.seqSource = (filterType .source (nodesOf ms)).reverse
  embKeys : ∀ n ∈ nodesOf ms, (mapGet ms.embeddings n.embeddingKey).isSome = true
  embNodup : (ms.embeddings.map (·.1)).Nodup

theorem storeInv_empty : StoreInv MemoryStream.empty := by
  constructor <;> first | rfl | (intro n hn; cases hn) | exact List.nodup_nil | trivial

theorem nodesOf_length (ms : MemoryStream) :
    (nodesOf ms).length = ms.idToNode.length := by
  unfold nodesOf
  rw [List.length_map]

/-- Every id in an invariant store is `node_<j+1>` for a `j` below the
store size. -/
theorem inv_id_bound (ms : MemoryStream) (hinv : StoreInv ms) :
    ∀ p ∈ ms.idToNode, ∃ j, j < ms.idToNode.length ∧ p.1 = generateNodeId (j + 1) := by
  intro p hp
  rw [hinv.keys] at hp
  rcases List.mem_map.mp hp with ⟨n, hn, rfl⟩
  rcases nodesOkFrom_ids _ _ hinv.nodesOk n hn with ⟨j, _, hj2, hj3⟩
  refine ⟨j, ?_, hj3⟩
  rw [← nodesOf_length]
  simpa using hj2

/-- The id the next add will use is absent from the store. -/
theorem inv_fresh_id (ms : MemoryStream) (hinv : StoreInv ms) :
    ∀ p ∈ ms.idToNode, p.1 ≠ generateNodeId (ms.idToNode.length + 1) := by
  intro p hp hcontra
  rcases inv_id_bound ms hinv p hp with ⟨j, hj, hid⟩
  rw [hid] at hcontra
  have := generateNodeId_injective hcontra
  omega

theorem inv_idToNode_add (ms : MemoryStream) (hinv : StoreInv ms) (n : MemoryNode)
    (hid : n.id = generateNodeId (ms.idToNode.length + 1)) :
    mapSet ms.idToNode n.id n = pairsOf (nodesOf ms ++ [n]) := by
  rw [mapSet_of_fresh _ _ _ (by rw [hid]; exact inv_fresh_id ms hinv),
    pairsOf_append, ← hinv.keys]

theorem filterType_append (t : MemoryNodeType) (ns : List MemoryNode) (n : MemoryNode) :
    filterType t (ns ++ [n]) =
      filterType t ns ++ if n.type = t then [n] else [] := by
  unfold filterType
  rw [List.filter_append]
  congr 1
  by_cases h : n.type = t <;> simp [h]

/-- Extending an invariant store with one fitting node (the common shape of
the four add operations) preserves the invariant and appends the node. -/
theorem inv_extend (ms : MemoryStream) (hinv : StoreInv ms) (ms2 : MemoryStream)
    (n : MemoryNode) (v : List ℚ)
    (hfits : NodeFits (nodesOf ms) n)
    (hI : ms2.idToNode = mapSet ms.idToNode n.id n)
    (hE : ms2.seqEvent = if n.type = .event then n :: ms.seqEvent else ms.seqEvent)
    (hT : ms2.seqThought = if n.type = .thought then n :: ms.seqThought else ms.seqThought)
    (hC : ms2.seqChat = if n.type = .chat then n :: ms.seqChat else ms.seqChat)
    (hS : ms2.seqSource = if n.type = .source then n :: ms.seqSource else ms.seqSource)
    (hEmb : ms2.embeddings = mapSet ms.embeddings n.embeddingKey v) :
    StoreInv ms2 ∧ nodesOf ms2 = nodesOf ms ++ [n] := by
  have hnid : n.id = generateNodeId (ms.idToNode.length + 1) := by
    have h := hfits.idOk
    rwa [nodesOf_length] at h
  have hidset : mapSet ms.idToNode n.id n = pairsOf (nodesOf ms ++ [n]) :=
    inv_idToNode_add ms hinv n hnid
  have hnodes : nodesOf ms2 = nodesOf ms ++ [n] := by
    unfold nodesOf
    rw [hI, hidset, pairsOf_snd]
    rfl
  have hseq : ∀ t (cur : List MemoryNode), cur = (filterType t (nodesOf ms)).reverse →
      (if n.type = t then n :: cur else cur) = (filterType t (nodesOf ms2)).reverse := by
    intro t cur hcur
    rw [hnodes, filterType_append]
    by_cases ht : n.type = t
    · rw [if_pos ht, if_pos ht, List.reverse_append, hcur]
      rfl
    · rw [if_neg ht, if_neg ht, List.append_nil, hcur]
  refine ⟨?_, hnodes⟩
  constructor
  · rw [hnodes, hI]
    exact hidset
  · rw [hnodes, nodesOkFrom_append]
    refine ⟨hinv.nodesOk, ?_⟩
    show NodeFits ([] ++ nodesOf ms) n ∧ True
    exact ⟨hfits, trivial⟩
  · exact hE.trans (hseq _ _ hinv.seqE)
  · exact hT.trans (hseq _ _ hinv.seqT)
  · exact hC.trans (hseq _ _ hinv.seqC)
  · exact hS.trans (hseq _ _ hinv.seqS)
  · intro m hm
    rw [hnodes] at hm
    rw [hEmb, mapGet_mapSet]
    rcases List.mem_append.mp hm with h | h
    · by_cases hk : m.embeddingKey = n.embeddingKey
      · rw [if_pos hk]
        rfl
      · rw [if_neg hk]
        exact hinv.embKeys m h
    · rw [List.mem_singleton] at h
      subst h
      rw [if_pos rfl]
      rfl
  · rw [hEmb]
    exact nodup_keys_mapSet _ _ _ hinv.embNodup

/-! ### Invariant preservation by the four add operations -/

theorem inv_addEvent (ms : MemoryStream) (hinv : StoreInv ms) (c : Int)
    (e : Option Int) (s p o d : String) (kw : List String) (pg : ℚ)
    (ep : String × List ℚ) (ev : List String) :
    StoreInv (ms.addEvent c e s p o d kw pg ep ev).2 ∧
    nodesOf (ms.addEvent c e s p o d kw pg ep ev).2
      = nodesOf ms ++ [(ms.addEvent c e s p o d kw pg ep ev).1] := by
  refine inv_extend ms hinv _ _ ep.2 ?_ rfl rfl rfl rfl rfl rfl
  have hc : ms.seqEvent.length = countType (nodesOf ms) .event := by
    rw [hinv.seqE, List.length_reverse]
    rfl
  constructor
  · rw [nodesOf_length]
    rfl
  · rw [nodesOf_length]
    rfl
  · show ms.seqEvent.length + 1 = countType (nodesOf ms) MemoryNodeType.event + 1
    rw [hc]
  · rfl
  · intro hsrc
    have h2 : MemoryNodeType.event = MemoryNodeType.source := hsrc
    cases h2
  · intro _
    exact ⟨rfl, rfl⟩

theorem inv_addThought (ms : MemoryStream) (hinv : StoreInv ms) (c : Int)
    (e : Option Int) (s p o d : String) (kw : List String) (pg : ℚ)
    (ep : String × List ℚ) (ev : List String) :
    StoreInv (ms.addThought c e s p o d kw pg ep ev).2 ∧
    nodesOf (ms.addThought c e s p o d kw pg ep ev).2
      = nodesOf ms ++ [(ms.addThought c e s p o d kw pg ep ev).1] := by
  refine inv_extend ms hinv _ _ ep.2 ?_ rfl rfl rfl rfl rfl rfl
  have hc : ms.seqThought.length = countType (nodesOf ms) .thought := by
    rw [hinv.seqT, List.length_reverse]
    rfl
  constructor
  · rw [nodesOf_length]
    rfl
  · rw [nodesOf_length]
    rfl
  · show ms.seqThought.length + 1 = countType (nodesOf ms) MemoryNodeType.thought + 1
    rw [hc]
  · show (ms.addThought c e s p o d kw pg ep ev).1.depth
      = depthSpec (ms.addThought c e s p o d kw pg ep ev).1 (nodesOf ms)
    unfold depthSpec evDepth
    rw [← hinv.keys]
    rfl
  · intro hsrc
    have h2 : MemoryNodeType.thought = MemoryNodeType.source := hsrc
    cases h2
  · intro _
    exact ⟨rfl, rfl⟩

theorem inv_addChat (ms : MemoryStream) (hinv : StoreInv ms) (c : Int)
    (e : Option Int) (s p o d : String) (kw : List String) (pg : ℚ)
    (ep : String × List ℚ) (ev : List String) :
    StoreInv (ms.addChat c e s p o d kw pg ep ev).2 ∧
    nodesOf (ms.addChat c e s p o d kw pg ep ev).2
      = nodesOf ms ++ [(ms.addChat c e s p o d kw pg ep ev).1] := by
  refine inv_extend ms hinv _ _ ep.2 ?_ rfl rfl rfl rfl rfl rfl
  have hc : ms.seqChat.length = countType (nodesOf ms) .chat := by
    rw [hinv.seqC, List.length_reverse]
    rfl
  constructor
  · rw [nodesOf_length]
    rfl
  · rw [nodesOf_length]
    rfl
  · show ms.seqChat.length + 1 = countType (nodesOf ms) MemoryNodeType.chat + 1
    rw [hc]
  · rfl
  · intro hsrc
    have h2 : MemoryNodeType.chat = MemoryNodeType.source := hsrc
    cases h2
  · intro _
    exact ⟨rfl, rfl⟩

theorem inv_addSource (ms : MemoryStream) (hinv : StoreInv ms) (c : Int)
    (si sp : String) (s p o d : String) (kw : List String) (pg : ℚ)
    (ep : String × List ℚ) :
    StoreInv (ms.addSource c si sp s p o d kw pg ep).2 ∧
    nodesOf (ms.addSource c si sp s p o d kw pg ep).2
      = nodesOf ms ++ [(ms.addSource c si sp s p o d kw pg ep).1] := by
  refine inv_extend ms hinv _ _ ep.2 ?_ rfl rfl rfl rfl rfl rfl
  have hc : ms.seqSource.length = countType (nodesOf ms) .source := by
    rw [hinv.seqS, List.length_reverse]
    rfl
  constructor
  · rw [nodesOf_length]
    rfl
  · rw [nodesOf_length]
    rfl
  · show ms.seqSource.length + 1 = countType (nodesOf ms) MemoryNodeType.source + 1
    rw [hc]
  · rfl
  · intro _
    exact ⟨rfl, rfl, rfl, rfl⟩
  · intro h
    exact absurd rfl h

/-! ### Invariant preservation by touchNode -/

/-- The per-node update `touchNode` applies through every container. -/
def touchUpd (nodeId : String) (t : Int) : MemoryNode → MemoryNode :=
  fun n => if n.id == nodeId then { n with lastAccessed := t } else n

theorem lastOnly_touchUpd (nodeId : String) (t : Int) :
    LastOnly (touchUpd nodeId t) := by
  intro n
  unfold touchUpd
  cases h : n.id == nodeId
  · rfl
  · rfl

theorem inv_touch_upd (ms : MemoryStream) (hinv : StoreInv ms)
    (nodeId : String) (t : Int) (ms2 : MemoryStream)
    (hI : ms2.idToNode = ms.idToNode.map (fun p =>
      if p.1 == nodeId then (p.1, { p.2 with lastAccessed := t }) else p))
    (hE : ms2.seqEvent = ms.seqEvent.map (touchUpd nodeId t))
    (hT : ms2.seqThought = ms.seqThought.map (touchUpd nodeId t))
    (hC : ms2.seqChat = ms.seqChat.map (touchUpd nodeId t))
    (hS : ms2.seqSource = ms.seqSource.map (touchUpd nodeId t))
    (hEmb : ms2.embeddings = ms.embeddings) :
    StoreInv ms2 ∧ nodesOf ms2 = (nodesOf ms).map (touchUpd nodeId t) := by
  have hlo : LastOnly (touchUpd nodeId t) := lastOnly_touchUpd nodeId t
  have hId2 : ms.idToNode.map (fun p =>
      if p.1 == nodeId then (p.1, { p.2 with lastAccessed := t }) else p)
      = pairsOf ((nodesOf ms).map (touchUpd nodeId t)) := by
    rw [pairsOf_map_lastOnly hlo, hinv.keys]
    apply List.map_congr_left
    intro q hq
    rcases List.mem_map.mp hq with ⟨n, _, rfl⟩
    show (if n.id == nodeId then (n.id, { n with lastAccessed := t }) else (n.id, n))
      = (n.id, touchUpd nodeId t n)
    unfold touchUpd
    cases h : n.id == nodeId
    · rfl
    · rfl
  have hnodes : nodesOf ms2 = (nodesOf ms).map (touchUpd nodeId t) := by
    unfold nodesOf
    rw [hI, hId2, pairsOf_snd]
    rfl
  have hseq : ∀ ty (cur : List MemoryNode),
      cur = (filterType ty (nodesOf ms)).reverse →
      cur.map (touchUpd nodeId t)
        = (filterType ty ((nodesOf ms).map (touchUpd nodeId t))).reverse := by
    intro ty cur hcur
    rw [filterType_map_lastOnly hlo, ← List.map_reverse, hcur]
  refine ⟨?_, hnodes⟩
  constructor
  · rw [hI, hnodes]
    exact hId2
  · rw [hnodes]
    have h := nodesOkFrom_map_lastOnly hlo (nodesOf ms) [] hinv.nodesOk
    simpa using h
  · rw [hE, hnodes]
    exact hseq _ _ hinv.seqE
  · rw [hT, hnodes]
    exact hseq _ _ hinv.seqT
  · rw [hC, hnodes]
    exact hseq _ _ hinv.seqC
  · rw [hS, hnodes]
    exact hseq _ _ hinv.seqS
  · intro m hm
    rw [hnodes] at hm
    rcases List.mem_map.mp hm with ⟨n, hn, rfl⟩
    have hk : (touchUpd nodeId t n).embeddingKey = n.embeddingKey := by
      rw [hlo n]
    rw [hEmb, hk]
    exact hinv.embKeys n hn
  · rw [hEmb]
    exact hinv.embNodup

theorem inv_touchNode (ms : MemoryStream) (hinv : StoreInv ms)
    (nodeId : String) (t : Int) :
    StoreInv (ms.touchNode nodeId t) ∧
    ∃ f, LastOnly f ∧ nodesOf (ms.touchNode nodeId t) = (nodesOf ms).map f := by
  unfold MemoryStream.touchNode
  cases hget : mapGet ms.idToNode nodeId with
  | none =>
    refine ⟨hinv, fun n => n, lastOnly_id, ?_⟩
    exact (List.map_id (nodesOf ms)).symm
  | some n0 =>
    obtain ⟨h1, h2⟩ := inv_touch_upd ms hinv nodeId t
      { ms with
        idToNode := ms.idToNode.map (fun p =>
          if p.1 == nodeId then (p.1, { p.2 with lastAccessed := t }) else p),
        seqEvent := ms.seqEvent.map (touchUpd nodeId t),
        seqThought := ms.seqThought.map (touchUpd nodeId t),
        seqChat := ms.seqChat.map (touchUpd nodeId t),
        seqSource := ms.seqSource.map (touchUpd nodeId t),
        kwToEvent := ms.kwToEvent.map (fun p => (p.1, p.2.map (touchUpd nodeId t))),
        kwToThought := ms.kwToThought.map (fun p => (p.1, p.2.map (touchUpd nodeId t))),
        kwToChat := ms.kwToChat.map (fun p => (p.1, p.2.map (touchUpd nodeId t))),
        kwToSource := ms.kwToSource.map (fun p => (p.1, p.2.map (touchUpd nodeId t))) }
      rfl rfl rfl rfl rfl rfl
    exact ⟨h1, touchUpd nodeId t, lastOnly_touchUpd nodeId t, h2⟩

/-! ### Sequences of store operations -/

/-- One mutating call on a `MemoryStream`: the four typed adds plus
`touchNode` (the only other method that rewrites stored nodes). -/
inductive MemOp : Type
  | event (created : Int) (expiration : Option Int)
      (subject predicate object description : String) (keywords : List String)
      (poignancy : ℚ) (embeddingPair : String × List ℚ) (evidence : List String)
  | thought (created : Int) (expiration : Option Int)
      (subject predicate object description : String) (keywords : List String)
      (poignancy : ℚ) (embeddingPair : String × List ℚ) (evidence : List String)
  | chat (created : Int) (expiration : Option Int)
      (subject predicate object description : String) (keywords : List String)
      (poignancy : ℚ) (embeddingPair : String × List ℚ) (evidence : List String)
  | source (created : Int) (sourceId sourcePassage : String)
      (subject predicate object description : String) (keywords : List String)
      (poignancy : ℚ) (embeddingPair : String × List ℚ)
  | touch (nodeId : String) (time : Int)
deriving Repr

/-- Run one operation against a store, keeping the updated store. -/
def applyOp (ms : MemoryStream) : MemOp → MemoryStream
  | .event c e s p o d kw pg ep ev => (ms.addEvent c e s p o d kw pg ep ev).2
  | .thought c e s p o d kw pg ep ev => (ms.addThought c e s p o d kw pg ep ev).2
  | .chat c e s p o d kw pg ep ev => (ms.addChat c e s p o d kw pg ep ev).2
  | .source c si sp s p o d kw pg ep => (ms.addSource c si sp s p o d kw pg ep).2
  | .touch id t => ms.touchNode id t

/-- The node an operation returns (`none` for `touchNode`, which returns
no node). -/
def opNode (ms : MemoryStream) : MemOp → Option MemoryNode
  | .event c e s p o d kw pg ep ev => some (ms.addEvent c e s p o d kw pg ep ev).1
  | .thought c e s p o d kw pg ep ev => some (ms.addThought c e s p o d kw pg ep ev).1
  | .chat c e s p o d kw pg ep ev => some (ms.addChat c e s p o d kw pg ep ev).1
  | .source c si sp s p o d kw pg ep => some (ms.addSource c si sp s p o d kw pg ep).1
  | .touch _ _ => none

/-- The keyword-list argument of an operation. -/
def MemOp.kws : MemOp → List String
  | .event _ _ _ _ _ _ kw _ _ _ => kw
  | .thought _ _ _ _ _ _ kw _ _ _ => kw
  | .chat _ _ _ _ _ _ kw _ _ _ => kw
  | .source _ _ _ _ _ _ _ kw _ _ => kw
  | .touch _ _ => []

/-- The store reached from `new MemoryStream()` by a call sequence. -/
def buildStream (ops : List MemOp) : MemoryStream :=
  ops.foldl applyOp MemoryStream.empty

/-- Invariant preservation and the node-list effect of one operation. -/
theorem inv_applyOp (ms : MemoryStream) (op : MemOp) (hinv : StoreInv ms) :
    StoreInv (applyOp ms op) ∧
    ((∃ n, opNode ms op = some n ∧
        nodesOf (applyOp ms op) = nodesOf ms ++ [n] ∧
        n.id = generateNodeId (ms.idToNode.length + 1) ∧
        n.keywords = op.kws) ∨
      (∃ f, LastOnly f ∧ opNode ms op = none ∧
        nodesOf (applyOp ms op) = (nodesOf ms).map f)) := by
  cases op with
  | event c e s p o d kw pg ep ev =>
    obtain ⟨h1, h2⟩ := inv_addEvent ms hinv c e s p o d kw pg ep ev
    exact ⟨h1, .inl ⟨_, rfl, h2, rfl, rfl⟩⟩
  | thought c e s p o d kw pg ep ev =>
    obtain ⟨h1, h2⟩ := inv_addThought ms hinv c e s p o d kw pg ep ev
    exact ⟨h1, .inl ⟨_, rfl, h2, rfl, rfl⟩⟩
  | chat c e s p o d kw pg ep ev =>
    obtain ⟨h1, h2⟩ := inv_addChat ms hinv c e s p o d kw pg ep ev
    exact ⟨h1, .inl ⟨_, rfl, h2, rfl, rfl⟩⟩
  | source c si sp s p o d kw pg ep =>
    obtain ⟨h1, h2⟩ := inv_addSource ms hinv c si sp s p o d kw pg ep
    exact ⟨h1, .inl ⟨_, rfl, h2, rfl, rfl⟩⟩
  | touch id t =>
    obtain ⟨h1, f, hf, h2⟩ := inv_touchNode ms hinv id t
    exact ⟨h1, .inr ⟨f, hf, rfl, h2⟩⟩

theorem storeInv_foldl :
    ∀ (ops : List MemOp) (ms : MemoryStream), StoreInv ms →
    StoreInv (ops.foldl applyOp ms) := by
  intro ops
  induction ops with
  | nil => intro ms h; exact h
  | cons op rest ih =>
    intro ms h
    exact ih (applyOp ms op) (inv_applyOp ms op h).1

theorem storeInv_buildStream (ops : List MemOp) : StoreInv (buildStream ops) :=
  storeInv_foldl ops MemoryStream.empty storeInv_empty

/-- The keyword lists stored on nodes are exactly the keyword arguments of
the operations that created them. -/
theorem kwNodup_foldl :
    ∀ (ops : List MemOp) (ms : MemoryStream), StoreInv ms →
    (∀ n ∈ nodesOf ms, n.keywords.Nodup) →
    (∀ op ∈ ops, op.kws.Nodup) →
    ∀ n ∈ nodesOf (ops.foldl applyOp ms), n.keywords.Nodup := by
  intro ops
  induction ops with
  | nil => intro ms _ hnd _; exact hnd
  | cons op rest ih =>
    intro ms hinv hnd hops
    apply ih (applyOp ms op) (inv_applyOp ms op hinv).1
    · rcases (inv_applyOp ms op hinv).2 with ⟨n, _, hnodes, _, hkw⟩ | ⟨f, hf, _, hnodes⟩
      · intro m hm
        rw [hnodes] at hm
        rcases List.mem_append.mp hm with h | h
        · exact hnd m h
        · rw [List.mem_singleton] at h
          subst h
          rw [hkw]
          exact hops op (by simp)
      · intro m hm
        rw [hnodes] at hm
        rcases List.mem_map.mp hm with ⟨m0, hm0, rfl⟩
        have : (f m0).keywords = m0.keywords := by rw [hf m0]
        rw [this]
        exact hnd m0 hm0
    · intro o ho
      exact hops o (by simp [ho])

/-! ### Claim C7: unique ids and immediate getNode retrieval -/

/-- The ids returned by the add calls of an operation sequence, replayed
from a given store. -/
def addedIdsGo : MemoryStream → List MemOp → List String
  | _, [] => []
  | ms, op :: rest =>
    match opNode ms op with
    | some n => n.id :: addedIdsGo (applyOp ms op) rest
    | none => addedIdsGo (applyOp ms op) rest

/-- The ids returned by the add calls of a sequence run on a fresh store. -/
def addedIds (ops : List MemOp) : List String :=
  addedIdsGo MemoryStream.empty ops

theorem addedIdsGo_cons (ms : MemoryStream) (op : MemOp) (rest : List MemOp) :
    addedIdsGo ms (op :: rest) =
      match opNode ms op with
      | some n => n.id :: addedIdsGo (applyOp ms op) rest
      | none => addedIdsGo (applyOp ms op) rest := rfl

/-- Every id an operation sequence returns is `node_<j+1>` with `j` at least
the starting store size. -/
theorem addedIdsGo_ids :
    ∀ (ops : List MemOp) (ms : MemoryStream), StoreInv ms →
    ∀ id ∈ addedIdsGo ms ops,
      ∃ j, ms.idToNode.length ≤ j ∧ id = generateNodeId (j + 1) := by
  intro ops
  induction ops with
  | nil => intro ms _ id hid; cases hid
  | cons op rest ih =>
    intro ms hinv id hid
    have hinv2 := (inv_applyOp ms op hinv).1
    rcases (inv_applyOp ms op hinv).2 with ⟨n, hsome, hnodes, hid2, _⟩ |
      ⟨f, _, hnone, hnodes⟩
    · have hlen : (applyOp ms op).idToNode.length = ms.idToNode.length + 1 := by
        have h := congrArg List.length hnodes
        rw [List.length_append] at h
        rw [nodesOf_length, nodesOf_length] at h
        simpa using h
      rw [addedIdsGo_cons, hsome] at hid
      replace hid : id ∈ n.id :: addedIdsGo (applyOp ms op) rest := hid
      rcases List.mem_cons.mp hid with h | h
      · exact ⟨ms.idToNode.length, le_refl _, h.trans hid2⟩
      · rcases ih (applyOp ms op) hinv2 id h with ⟨j, hj1, hj2⟩
        refine ⟨j, ?_, hj2⟩
        omega
    · have hlen : (applyOp ms op).idToNode.length = ms.idToNode.length := by
        have h := congrArg List.length hnodes
        rw [List.length_map] at h
        rw [nodesOf_length, nodesOf_length] at h
        exact h
      rw [addedIdsGo_cons, hnone] at hid
      replace hid : id ∈ addedIdsGo (applyOp ms op) rest := hid
      rcases ih (applyOp ms op) hinv2 id hid with ⟨j, hj1, hj2⟩
      refine ⟨j, ?_, hj2⟩
      omega

theorem addedIdsGo_nodup :
    ∀ (ops : List MemOp) (ms : MemoryStream), StoreInv ms →
    (addedIdsGo ms ops).Nodup := by
  intro ops
  induction ops with
  | nil => intro ms _; exact List.nodup_nil
  | cons op rest ih =>
    intro ms hinv
    have hinv2 := (inv_applyOp ms op hinv).1
    rcases (inv_applyOp ms op hinv).2 with ⟨n, hsome, hnodes, hid2, _⟩ |
      ⟨f, _, hnone, hnodes⟩
    · have hlen : (applyOp ms op).idToNode.length = ms.idToNode.length + 1 := by
        have h := congrArg List.length hnodes
        rw [List.length_append] at h
        rw [nodesOf_length, nodesOf_length] at h
        simpa using h
      rw [addedIdsGo_cons, hsome]
      show (n.id :: addedIdsGo (applyOp ms op) rest).Nodup
      rw [List.nodup_cons]
      refine ⟨?_, ih _ hinv2⟩
      intro hmem
      rcases addedIdsGo_ids rest (applyOp ms op) hinv2 n.id hmem with ⟨j, hj1, hj2⟩
      rw [hid2] at hj2
      have := generateNodeId_injective hj2
      omega
    · rw [addedIdsGo_cons, hnone]
      show (addedIdsGo (applyOp ms op) rest).Nodup
      exact ih _ hinv2

/-- Every stored node of an invariant store has a positional id below the
store size. -/
theorem inv_node_ids (ms : MemoryStream) (hinv : StoreInv ms) :
    ∀ m ∈ nodesOf ms, ∃ j, j < ms.idToNode.length ∧ m.id = generateNodeId (j + 1) := by
  intro m hm
  rcases nodesOkFrom_ids _ _ hinv.nodesOk m hm with ⟨j, _, hj2, hj3⟩
  refine ⟨j, ?_, hj3⟩
  rw [← nodesOf_length]
  simpa using hj2

/-- C7: for every sequence of memory-store operations, the add calls return
nodes with pairwise distinct ids (`addedIds` is duplicate-free), and any add
performed after a prefix of the sequence returns a node whose id differs
from the id of every node already in the store and which `getNode`
immediately retrieves unchanged. -/
theorem add_unique_id_getNode_spec (ops : List MemOp) :
    (addedIds ops).Nodup ∧
    ∀ (pre rest : List MemOp) (op : MemOp) (n : MemoryNode),
      ops = pre ++ op :: rest →
      opNode (buildStream pre) op = some n →
      (∀ m ∈ nodesOf (buildStream pre), m.id ≠ n.id) ∧
      (buildStream pre |> (applyOp · op)).getNode n.id = some n := by
  constructor
  · exact addedIdsGo_nodup ops MemoryStream.empty storeInv_empty
  · intro pre rest op n heq hsome
    have hinv : StoreInv (buildStream pre) := storeInv_buildStream pre
    cases op with
    | event c e s p o d kw pg ep ev =>
      injection hsome with h2
      constructor
      · intro m hm hcontra
        rcases inv_node_ids _ hinv m hm with ⟨j, hj, hjid⟩
        rw [← h2] at hcontra
        have hid' : ((buildStream pre).addEvent c e s p o d kw pg ep ev).1.id
            = generateNodeId ((buildStream pre).idToNode.length + 1) := rfl
        rw [hjid, hid'] at hcontra
        have := generateNodeId_injective hcontra
        omega
      · rw [← h2]
        exact mapGet_mapSet_self _ _ _
    | thought c e s p o d kw pg ep ev =>
      injection hsome with h2
      constructor
      · intro m hm hcontra
        rcases inv_node_ids _ hinv m hm with ⟨j, hj, hjid⟩
        rw [← h2] at hcontra
        have hid' : ((buildStream pre).addThought c e s p o d kw pg ep ev).1.id
            = generateNodeId ((buildStream pre).idToNode.length + 1) := rfl
        rw [hjid, hid'] at hcontra
        have := generateNodeId_injective hcontra
        omega
      · rw [← h2]
        exact mapGet_mapSet_self _ _ _
    | chat c e s p o d kw pg ep ev =>
      injection hsome with h2
      constructor
      · intro m hm hcontra
        rcases inv_node_ids _ hinv m hm with ⟨j, hj, hjid⟩
        rw [← h2] at hcontra
        have hid' : ((buildStream pre).addChat c e s p o d kw pg ep ev).1.id
            = generateNodeId ((buildStream pre).idToNode.length + 1) := rfl
        rw [hjid, hid'] at hcontra
        have := generateNodeId_injective hcontra
        omega
      · rw [← h2]
        exact mapGet_mapSet_self _ _ _
    | source c si sp s p o d kw pg ep =>
      injection hsome with h2
      constructor
      · intro m hm hcontra
        rcases inv_node_ids _ hinv m hm with ⟨j, hj, hjid⟩
        rw [← h2] at hcontra
        have hid' : ((buildStream pre).addSource c si sp s p o d kw pg ep).1.id
            = generateNodeId ((buildStream pre).idToNode.length + 1) := rfl
        rw [hjid, hid'] at hcontra
        have := generateNodeId_injective hcontra
        omega
      · rw [← h2]
        exact mapGet_mapSet_self _ _ _
    | touch id t => exact Option.noConfusion hsome

def c7OpE : MemOp :=
  MemOp.event 100 none "socrates" "is" "curious" "Socrates is curious"
    ["socrates"] 7 ("Socrates is curious", [1, 0]) []

def c7OpT : MemOp :=
  MemOp.thought 200 none "socrates" "reflects" "wonder" "Wonder grounds inquiry"
    ["wonder"] 8 ("Wonder grounds inquiry", [0, 1]) ["node_1"]

def c7Node : MemoryNode :=
  { id := "node_2", nodeCount := 2, typeCount := 1, type := .thought, depth := 1,
    created := 200, expiration := none, lastAccessed := 200,
    subject := "socrates", predicate := "reflects", object := "wonder",
    description := "Wonder grounds inquiry", embeddingKey := "Wonder grounds inquiry",
    poignancy := 8, keywords := ["wonder"], evidence := ["node_1"] }

/-- C7 witness: after one `addEvent`, an `addThought` returns `node_2`,
whose id differs from the stored `node_1`, and `getNode "node_2"`
immediately retrieves the returned node. -/
theorem add_unique_id_getNode_spec_witness :
    (∀ m ∈ nodesOf (buildStream [c7OpE]), m.id ≠ c7Node.id) ∧
    (buildStream [c7OpE] |> (applyOp · c7OpT)).getNode c7Node.id = some c7Node :=
  (add_unique_id_getNode_spec [c7OpE, c7OpT]).2 [c7OpE] [] c7OpT c7Node rfl (by decide)

/-! ### Claim C4: the serialize/deserialize round trip -/

theorem lastOnly_primeNode : LastOnly primeNode := fun _ => rfl

theorem memoryNode_ext (a b : MemoryNode)
    (h1 : a.id = b.id) (h2 : a.nodeCount = b.nodeCount) (h3 : a.typeCount = b.typeCount)
    (h4 : a.type = b.type) (h5 : a.depth = b.depth) (h6 : a.created = b.created)
    (h7 : a.expiration = b.expiration) (h8 : a.lastAccessed = b.lastAccessed)
    (h9 : a.subject = b.subject) (h10 : a.predicate = b.predicate)
    (h11 : a.object = b.object) (h12 : a.description = b.description)
    (h13 : a.embeddingKey = b.embeddingKey) (h14 : a.poignancy = b.poignancy)
    (h15 : a.keywords = b.keywords) (h16 : a.evidence = b.evidence)
    (h17 : a.sourceId = b.sourceId) (h18 : a.sourcePassage = b.sourcePassage) :
    a = b := by
  cases a
  cases b
  simp only [MemoryNode.mk.injEq]
  exact ⟨h1, h2, h3, h4, h5, h6, h7, h8, h9, h10, h11, h12, h13, h14, h15, h16,
    h17, h18⟩

/-- Replaying a serialized event node through `addEvent` rebuilds the node,
except that `lastAccessed` is reset to `created`. -/
theorem replayed_event_node (ms : MemoryStream) (pre : List MemoryNode)
    (n : MemoryNode) (hfits : NodeFits pre n) (htype : n.type = .event)
    (hkw : n.keywords.Nodup) (hLen : ms.idToNode.length = pre.length)
    (hTC : ms.seqEvent.length = countType pre .event) :
    (ms.addEvent n.created n.expiration n.subject n.predicate n.object n.description
      (jsSetOf n.keywords) n.poignancy
      (n.embeddingKey, (mapGet ms.embeddings n.embeddingKey).getD []) n.evidence).1
      = primeNode n := by
  have hne : n.type ≠ .source := by
    rw [htype]
    intro hcontra
    exact MemoryNodeType.noConfusion hcontra
  refine memoryNode_ext _ _ ?_ ?_ ?_ ?_ ?_ rfl rfl ?_ rfl rfl rfl rfl rfl rfl ?_ rfl ?_ ?_
  · show generateNodeId (ms.idToNode.length + 1) = n.id
    rw [hLen, hfits.idOk]
  · show ms.idToNode.length + 1 = n.nodeCount
    rw [hLen, hfits.ncOk]
  · show ms.seqEvent.length + 1 = n.typeCount
    rw [hTC, hfits.tcOk, htype]
  · show MemoryNodeType.event = n.type
    exact htype.symm
  · show 0 = n.depth
    rw [hfits.depthOk]
    unfold depthSpec
    rw [htype]
  · show n.created = n.created
    rfl
  · show jsSetOf n.keywords = n.keywords
    exact jsSetOf_of_nodup _ hkw
  · show none = n.sourceId
    exact (hfits.nonSrcOk hne).1.symm
  · show none = n.sourcePassage
    exact (hfits.nonSrcOk hne).2.symm

/-- Replaying a serialized chat node through `addChat` rebuilds the node,
except that `lastAccessed` is reset to `created`. -/
theorem replayed_chat_node (ms : MemoryStream) (pre : List MemoryNode)
    (n : MemoryNode) (hfits : NodeFits pre n) (htype : n.type = .chat)
    (hkw : n.keywords.Nodup) (hLen : ms.idToNode.length = pre.length)
    (hTC : ms.seqChat.length = countType pre .chat) :
    (ms.addChat n.created n.expiration n.subject n.predicate n.object n.description
      (jsSetOf n.keywords) n.poignancy
      (n.embeddingKey, (mapGet ms.embeddings n.embeddingKey).getD []) n.evidence).1
      = primeNode n := by
  have hne : n.type ≠ .source := by
    rw [htype]
    intro hcontra
    exact MemoryNodeType.noConfusion hcontra
  refine memoryNode_ext _ _ ?_ ?_ ?_ ?_ ?_ rfl rfl ?_ rfl rfl rfl rfl rfl rfl ?_ rfl ?_ ?_
  · show generateNodeId (ms.idToNode.length + 1) = n.id
    rw [hLen, hfits.idOk]
  · show ms.idToNode.length + 1 = n.nodeCount
    rw [hLen, hfits.ncOk]
  · show ms.seqChat.length + 1 = n.typeCount
    rw [hTC, hfits.tcOk, htype]
  · show MemoryNodeType.chat = n.type
    exact htype.symm
  · show 0 = n.depth
    rw [hfits.depthOk]
    unfold depthSpec
    rw [htype]
  · show n.created = n.created
    rfl
  · show jsSetOf n.keywords = n.keywords
    exact jsSetOf_of_nodup _ hkw
  · show none = n.sourceId
    exact (hfits.nonSrcOk hne).1.symm
  · show none = n.sourcePassage
    exact (hfits.nonSrcOk hne).2.symm

/-- Replaying a serialized thought node through `addThought` rebuilds the
node — including recomputing the same depth from the already-replayed
prefix — except that `lastAccessed` is reset to `created`. -/
theorem replayed_thought_node (ms : MemoryStream) (pre : List MemoryNode)
    (n : MemoryNode) (hfits : NodeFits pre n) (htype : n.type = .thought)
    (hkw : n.keywords.Nodup) (hLen : ms.idToNode.length = pre.length)
    (hIdPairs : ms.idToNode = pairsOf (pre.map primeNode))
    (hTC : ms.seqThought.length = countType pre .thought) :
    (ms.addThought n.created n.expiration n.subject n.predicate n.object n.description
      (jsSetOf n.keywords) n.poignancy
      (n.embeddingKey, (mapGet ms.embeddings n.embeddingKey).getD []) n.evidence).1
      = primeNode n := by
  have hne : n.type ≠ .source := by
    rw [htype]
    intro hcontra
    exact MemoryNodeType.noConfusion hcontra
  refine memoryNode_ext _ _ ?_ ?_ ?_ ?_ ?_ rfl rfl ?_ rfl rfl rfl rfl rfl rfl ?_ rfl ?_ ?_
  · show generateNodeId (ms.idToNode.length + 1) = n.id
    rw [hLen, hfits.idOk]
  · show ms.idToNode.length + 1 = n.nodeCount
    rw [hLen, hfits.ncOk]
  · show ms.seqThought.length + 1 = n.typeCount
    rw [hTC, hfits.tcOk, htype]
  · show MemoryNodeType.thought = n.type
    exact htype.symm
  · show (if n.evidence.length > 0 then
        (n.evidence.map (fun id =>
          ((mapGet ms.idToNode id).map (·.depth)).getD 0)).foldr max 0 + 1
      else 1) = n.depth
    rw [hfits.depthOk]
    unfold depthSpec
    rw [htype]
    have hd : ∀ id, ((mapGet ms.idToNode id).map (·.depth)).getD 0
        = evDepth (pairsOf pre) id := by
      intro id
      rw [hIdPairs]
      exact evDepth_map_lastOnly lastOnly_primeNode pre id
    by_cases hlen2 : n.evidence.length > 0
    · rw [if_pos hlen2, if_pos hlen2,
        List.map_congr_left (fun id _ => hd id)]
    · rw [if_neg hlen2, if_neg hlen2]
  · show n.created = n.created
    rfl
  · show jsSetOf n.keywords = n.keywords
    exact jsSetOf_of_nodup _ hkw
  · show none = n.sourceId
    exact (hfits.nonSrcOk hne).1.symm
  · show none = n.sourcePassage
    exact (hfits.nonSrcOk hne).2.symm

/-- Replaying a serialized source node through `addSource` rebuilds the node,
except that `lastAccessed` is reset to `created`. -/
theorem replayed_source_node (ms : MemoryStream) (pre : List MemoryNode)
    (n : MemoryNode) (hfits : NodeFits pre n) (htype : n.type = .source)
    (hkw : n.keywords.Nodup) (hLen : ms.idToNode.length = pre.length)
    (hTC : ms.seqSource.length = countType pre .source) :
    (ms.addSource n.created (n.sourceId.getD "") (n.sourcePassage.getD "")
      n.subject n.predicate n.object n.description (jsSetOf n.keywords)
      n.poignancy
      (n.embeddingKey, (mapGet ms.embeddings n.embeddingKey).getD [])).1
      = primeNode n := by
  obtain ⟨hexp, hev, hsi, hsp⟩ := hfits.srcOk htype
  refine memoryNode_ext _ _ ?_ ?_ ?_ ?_ ?_ rfl ?_ ?_ rfl rfl rfl rfl rfl rfl ?_ ?_ ?_ ?_
  · show generateNodeId (ms.idToNode.length + 1) = n.id
    rw [hLen, hfits.idOk]
  · show ms.idToNode.length + 1 = n.nodeCount
    rw [hLen, hfits.ncOk]
  · show ms.seqSource.length + 1 = n.typeCount
    rw [hTC, hfits.tcOk, htype]
  · show MemoryNodeType.source = n.type
    exact htype.symm
  · show 0 = n.depth
    rw [hfits.depthOk]
    unfold depthSpec
    rw [htype]
  · show none = n.expiration
    exact hexp.symm
  · show n.created = n.created
    rfl
  · show jsSetOf n.keywords = n.keywords
    exact jsSetOf_of_nodup _ hkw
  · show ([] : List String) = n.evidence
    exact hev.symm
  · rcases Option.isSome_iff_exists.mp hsi with ⟨si, hsi2⟩
    show some (n.sourceId.getD "") = n.sourceId
    rw [hsi2]
    rfl
  · rcases Option.isSome_iff_exists.mp hsp with ⟨sp, hsp2⟩
    show some (n.sourcePassage.getD "") = n.sourcePassage
    rw [hsp2]
    rfl

/-- Replaying one serialized node onto the store that holds the primed
(`lastAccessed := created`) prefix extends it by the primed node and leaves
the embedding cache unchanged. -/
theorem replay_step (pre : List MemoryNode) (n : MemoryNode) (ms : MemoryStream)
    (E : List (String × List ℚ))
    (hpreOk : NodesOkFrom [] pre) (hfits : NodeFits pre n)
    (hkw : n.keywords.Nodup)
    (hkeysPre : ∀ m ∈ pre, (mapGet E m.embeddingKey).isSome = true)
    (hkeyN : (mapGet E n.embeddingKey).isSome = true)
    (hEnd : (E.map (·.1)).Nodup)
    (hI : ms.idToNode = pairsOf (pre.map primeNode))
    (hE : ms.seqEvent = (filterType .event (pre.map primeNode)).reverse)
    (hT : ms.seqThought = (filterType .thought (pre.map primeNode)).reverse)
    (hC : ms.seqChat = (filterType .chat (pre.map primeNode)).reverse)
    (hS : ms.seqSource = (filterType .source (pre.map primeNode)).reverse)
    (hEmb : ms.embeddings = E) :
    (replayNode ms (serializeNode n)).idToNode
      = pairsOf ((pre ++ [n]).map primeNode) ∧
    (replayNode ms (serializeNode n)).seqEvent
      = (filterType .event ((pre ++ [n]).map primeNode)).reverse ∧
    (replayNode ms (serializeNode n)).seqThought
      = (filterType .thought ((pre ++ [n]).map primeNode)).reverse ∧
    (replayNode ms (serializeNode n)).seqChat
      = (filterType .chat ((pre ++ [n]).map primeNode)).reverse ∧
    (replayNode ms (serializeNode n)).seqSource
      = (filterType .source ((pre ++ [n]).map primeNode)).reverse ∧
    (replayNode ms (serializeNode n)).embeddings = E := by
  have hlo : LastOnly primeNode := lastOnly_primeNode
  have hns : nodesOf ms = pre.map primeNode := by
    unfold nodesOf
    rw [hI, pairsOf_snd]
  have hinv : StoreInv ms := by
    constructor
    · rw [hns]
      exact hI
    · rw [hns]
      have h := nodesOkFrom_map_lastOnly hlo pre [] hpreOk
      simpa using h
    · rw [hns]
      exact hE
    · rw [hns]
      exact hT
    · rw [hns]
      exact hC
    · rw [hns]
      exact hS
    · intro m hm
      rw [hns] at hm
      rcases List.mem_map.mp hm with ⟨m0, hm0, rfl⟩
      show (mapGet ms.embeddings m0.embeddingKey).isSome = true
      rw [hEmb]
      exact hkeysPre m0 hm0
    · rw [hEmb]
      exact hEnd
  have hLen : ms.idToNode.length = pre.length := by
    rw [hI]
    unfold pairsOf
    rw [List.length_map, List.length_map]
  have hembPair : mapSet ms.embeddings n.embeddingKey
      ((mapGet ms.embeddings n.embeddingKey).getD []) = E := by
    rw [hEmb]
    rcases Option.isSome_iff_exists.mp hkeyN with ⟨v, hv⟩
    rw [hv]
    exact mapSet_self_of_mapGet E hEnd hv
  have hTCe : ms.seqEvent.length = countType pre .event := by
    rw [hE, List.length_reverse, filterType_map_lastOnly hlo, List.length_map]
    rfl
  have hTCt : ms.seqThought.length = countType pre .thought := by
    rw [hT, List.length_reverse, filterType_map_lastOnly hlo, List.length_map]
    rfl
  have hTCc : ms.seqChat.length = countType pre .chat := by
    rw [hC, List.length_reverse, filterType_map_lastOnly hlo, List.length_map]
    rfl
  have hTCs : ms.seqSource.length = countType pre .source := by
    rw [hS, List.length_reverse, filterType_map_lastOnly hlo, List.length_map]
    rfl
  have happ : (pre ++ [n]).map primeNode = pre.map primeNode ++ [primeNode n] := by
    rw [List.map_append]
    rfl
  cases htype : n.type with
  | event =>
    have hred : replayNode ms (serializeNode n)
        = (ms.addEvent n.created n.expiration n.subject n.predicate n.object
            n.description (jsSetOf n.keywords) n.poignancy
            (n.embeddingKey, (mapGet ms.embeddings n.embeddingKey).getD [])
            n.evidence).2 := by
      unfold replayNode serializeNode
      rw [htype]
    obtain ⟨hInv2, hNodes2⟩ := inv_addEvent ms hinv n.created n.expiration n.subject
      n.predicate n.object n.description (jsSetOf n.keywords) n.poignancy
      (n.embeddingKey, (mapGet ms.embeddings n.embeddingKey).getD []) n.evidence
    rw [replayed_event_node ms pre n hfits htype hkw hLen hTCe, hns] at hNodes2
    rw [← happ] at hNodes2
    refine ⟨?_, ?_, ?_, ?_, ?_, ?_⟩
    · rw [hred, hInv2.keys, hNodes2]
    · rw [hred, hInv2.seqE, hNodes2]
    · rw [hred, hInv2.seqT, hNodes2]
    · rw [hred, hInv2.seqC, hNodes2]
    · rw [hred, hInv2.seqS, hNodes2]
    · rw [hred]
      exact hembPair
  | thought =>
    have hred : replayNode ms (serializeNode n)
        = (ms.addThought n.created n.expiration n.subject n.predicate n.object
            n.description (jsSetOf n.keywords) n.poignancy
            (n.embeddingKey, (mapGet ms.embeddings n.embeddingKey).getD [])
            n.evidence).2 := by
      unfold replayNode serializeNode
      rw [htype]
    obtain ⟨hInv2, hNodes2⟩ := inv_addThought ms hinv n.created n.expiration n.subject
      n.predicate n.object n.description (jsSetOf n.keywords) n.poignancy
      (n.embeddingKey, (mapGet ms.embeddings n.embeddingKey).getD []) n.evidence
    rw [replayed_thought_node ms pre n hfits htype hkw hLen hI hTCt, hns] at hNodes2
    rw [← happ] at hNodes2
    refine ⟨?_, ?_, ?_, ?_, ?_, ?_⟩
    · rw [hred, hInv2.keys, hNodes2]
    · rw [hred, hInv2.seqE, hNodes2]
    · rw [hred, hInv2.seqT, hNodes2]
    · rw [hred, hInv2.seqC, hNodes2]
    · rw [hred, hInv2.seqS, hNodes2]
    · rw [hred]
      exact hembPair
  | chat =>
    have hred : replayNode ms (serializeNode n)
        = (ms.addChat n.created n.expiration n.subject n.predicate n.object
            n.description (jsSetOf n.keywords) n.poignancy
            (n.embeddingKey, (mapGet ms.embeddings n.embeddingKey).getD [])
            n.evidence).2 := by
      unfold replayNode serializeNode
      rw [htype]
    obtain ⟨hInv2, hNodes2⟩ := inv_addChat ms hinv n.created n.expiration n.subject
      n.predicate n.object n.description (jsSetOf n.keywords) n.poignancy
      (n.embeddingKey, (mapGet ms.embeddings n.embeddingKey).getD []) n.evidence
    rw [replayed_chat_node ms pre n hfits htype hkw hLen hTCc, hns] at hNodes2
    rw [← happ] at hNodes2
    refine ⟨?_, ?_, ?_, ?_, ?_, ?_⟩
    · rw [hred, hInv2.keys, hNodes2]
    · rw [hred, hInv2.seqE, hNodes2]
    · rw [hred, hInv2.seqT, hNodes2]
    · rw [hred, hInv2.seqC, hNodes2]
    · rw [hred, hInv2.seqS, hNodes2]
    · rw [hred]
      exact hembPair
  | source =>
    have hred : replayNode ms (serializeNode n)
        = (ms.addSource n.created (n.sourceId.getD "") (n.sourcePassage.getD "")
            n.subject n.predicate n.object n.description (jsSetOf n.keywords)
            n.poignancy
            (n.embeddingKey, (mapGet ms.embeddings n.embeddingKey).getD [])).2 := by
      unfold replayNode serializeNode
      rw [htype]
    obtain ⟨hInv2, hNodes2⟩ := inv_addSource ms hinv n.created (n.sourceId.getD "")
      (n.sourcePassage.getD "") n.subject n.predicate n.object n.description
      (jsSetOf n.keywords) n.poignancy
      (n.embeddingKey, (mapGet ms.embeddings n.embeddingKey).getD [])
    rw [replayed_source_node ms pre n hfits htype hkw hLen hTCs, hns] at hNodes2
    rw [← happ] at hNodes2
    refine ⟨?_, ?_, ?_, ?_, ?_, ?_⟩
    · rw [hred, hInv2.keys, hNodes2]
    · rw [hred, hInv2.seqE, hNodes2]
    · rw [hred, hInv2.seqT, hNodes2]
    · rw [hred, hInv2.seqC, hNodes2]
    · rw [hred, hInv2.seqS, hNodes2]
    · rw [hred]
      exact hembPair

/-- The replay loop over a fitting suffix: starting from the store holding
the primed prefix, replaying the serialized suffix yields the store holding
the whole primed list, with the embedding cache untouched. -/
theorem replay_go :
    ∀ (post pre : List MemoryNode) (ms : MemoryStream) (E : List (String × List ℚ)),
    NodesOkFrom [] pre → NodesOkFrom pre post →
    (∀ m ∈ post, m.keywords.Nodup) →
    (∀ m ∈ pre, (mapGet E m.embeddingKey).isSome = true) →
    (∀ m ∈ post, (mapGet E m.embeddingKey).isSome = true) →
    (E.map (·.1)).Nodup →
    ms.idToNode = pairsOf (pre.map primeNode) →
    ms.seqEvent = (filterType .event (pre.map primeNode)).reverse →
    ms.seqThought = (filterType .thought (pre.map primeNode)).reverse →
    ms.seqChat = (filterType .chat (pre.map primeNode)).reverse →
    ms.seqSource = (filterType .source (pre.map primeNode)).reverse →
    ms.embeddings = E →
    ((post.map serializeNode).foldl replayNode ms).idToNode
      = pairsOf ((pre ++ post).map primeNode) ∧
    ((post.map serializeNode).foldl replayNode ms).seqEvent
      = (filterType .event ((pre ++ post).map primeNode)).reverse ∧
    ((post.map serializeNode).foldl replayNode ms).seqThought
      = (filterType .thought ((pre ++ post).map primeNode)).reverse ∧
    ((post.map serializeNode).foldl replayNode ms).seqChat
      = (filterType .chat ((pre ++ post).map primeNode)).reverse ∧
    ((post.map serializeNode).foldl replayNode ms).seqSource
      = (filterType .source ((pre ++ post).map primeNode)).reverse ∧
    ((post.map serializeNode).foldl replayNode ms).embeddings = E := by
  intro post
  induction post with
  | nil =>
    intro pre ms E _ _ _ _ _ _ hI hE hT hC hS hEmb
    rw [List.append_nil]
    exact ⟨hI, hE, hT, hC, hS, hEmb⟩
  | cons x rest ih =>
    intro pre ms E hpreOk hpostOk hkws hkeysPre hkeysPost hEnd hI hE hT hC hS hEmb
    obtain ⟨hfits, hrest⟩ := hpostOk
    obtain ⟨hI2, hE2, hT2, hC2, hS2, hEmb2⟩ := replay_step pre x ms E hpreOk hfits
      (hkws x (by simp)) hkeysPre (hkeysPost x (by simp)) hEnd hI hE hT hC hS hEmb
    have hpreOk2 : NodesOkFrom [] (pre ++ [x]) := by
      rw [nodesOkFrom_append]
      refine ⟨hpreOk, ?_⟩
      show NodeFits ([] ++ pre) x ∧ True
      exact ⟨hfits, trivial⟩
    have hmain := ih (pre ++ [x]) (replayNode ms (serializeNode x)) E hpreOk2 hrest
      (fun m hm => hkws m (by simp [hm]))
      (fun m hm => by
        rcases List.mem_append.mp hm with h | h
        · exact hkeysPre m h
        · rw [List.mem_singleton] at h
          subst h
          exact hkeysPost m (by simp))
      (fun m hm => hkeysPost m (by simp [hm]))
      hEnd hI2 hE2 hT2 hC2 hS2 hEmb2
    rw [List.append_assoc] at hmain
    exact hmain

/-- The node keys of an invariant store are duplicate-free. -/
theorem inv_keys_nodup (ms : MemoryStream) (hinv : StoreInv ms) :
    (ms.idToNode.map (·.1)).Nodup := by
  rw [hinv.keys]
  have hkeys : (pairsOf (nodesOf ms)).map (·.1) = (nodesOf ms).map (·.id) := by
    unfold pairsOf
    rw [List.map_map]
    rfl
  rw [hkeys]
  rw [List.nodup_iff_injective_get]
  intro i j hij
  have h1 := nodesOkFrom_id_get (nodesOf ms) [] hinv.nodesOk i.1 (by
    have := i.2
    simpa using this)
  have h2 := nodesOkFrom_id_get (nodesOf ms) [] hinv.nodesOk j.1 (by
    have := j.2
    simpa using this)
  have hgι : ∀ (k : Fin ((nodesOf ms).map (·.id)).length),
      ((nodesOf ms).map (·.id)).get k
        = ((nodesOf ms).get ⟨k.1, by simpa using k.2⟩).id := by
    intro k
    rw [List.get_map]
  rw [hgι i, hgι j] at hij
  rw [h1, h2] at hij
  have := generateNodeId_injective hij
  have hii : i.1 = j.1 := by omega
  exact Fin.ext hii
/-- The `node_<n>` keys of an invariant store are already in ascending
numeric-suffix order, so the deserializer's sort leaves them unchanged. -/
theorem keys_sorted (ms : MemoryStream) (hinv : StoreInv ms) :
    List.insertionSort (fun a b => idSuffixVal a ≤ idSuffixVal b)
      (ms.idToNode.map (·.1)) = ms.idToNode.map (·.1) := by
  apply List.Sorted.insertionSort_eq
  rw [hinv.keys]
  have hkeys : (pairsOf (nodesOf ms)).map (·.1) = (nodesOf ms).map (·.id) := by
    unfold pairsOf
    rw [List.map_map]
    rfl
  rw [hkeys]
  rw [List.Sorted, List.pairwise_iff_get]
  intro i j hij
  have h1 := nodesOkFrom_id_get (nodesOf ms) [] hinv.nodesOk i.1 (by
    have := i.2
    simpa using this)
  have h2 := nodesOkFrom_id_get (nodesOf ms) [] hinv.nodesOk j.1 (by
    have := j.2
    simpa using this)
  have hgι : ∀ (k : Fin ((nodesOf ms).map (·.id)).length),
      ((nodesOf ms).map (·.id)).get k
        = ((nodesOf ms).get ⟨k.1, by simpa using k.2⟩).id := by
    intro k
    rw [List.get_map]
  rw [hgι i, hgι j, h1, h2, idSuffixVal_generateNodeId, idSuffixVal_generateNodeId]
  have : i.1 < j.1 := hij
  omega

/-- Folding over the keys of a duplicate-free association list while looking
each key back up is folding over the values. -/
theorem foldl_lookup_eq {β γ : Type} (m : List (String × β))
    (hnd : (m.map (·.1)).Nodup) (g : γ → β → γ) (F : γ → String → γ)
    (hF : ∀ (acc : γ) (k : String) (v : β), mapGet m k = some v → F acc k = g acc v) :
    ∀ (l : List (String × β)), (∀ p ∈ l, p ∈ m) → ∀ (a : γ),
    (l.map (·.1)).foldl F a = (l.map (·.2)).foldl g a := by
  intro l
  induction l with
  | nil => intro _ a; rfl
  | cons p rest ih =>
    intro hsub a
    have hp : mapGet m p.1 = some p.2 := mapGet_of_nodup_mem m hnd (hsub p (by simp))
    show List.foldl F (F a p.1) (rest.map (·.1)) = List.foldl g (g a p.2) (rest.map (·.2))
    rw [hF a p.1 p.2 hp]
    exact ih (fun q hq => hsub q (by simp [hq])) (g a p.2)

/-- Deserializing the serialized form of an invariant store reproduces the
store's node table with every node primed (`lastAccessed` reset to
`created`) and reproduces its embedding cache exactly. -/
theorem ofData_toJSON (ms : MemoryStream) (hinv : StoreInv ms)
    (hkwn : ∀ n ∈ nodesOf ms, n.keywords.Nodup) :
    (MemoryStream.ofData ms.toJSON).idToNode
      = pairsOf ((nodesOf ms).map primeNode) ∧
    (MemoryStream.ofData ms.toJSON).embeddings = ms.embeddings := by
  have hkeys1 : (MemoryStream.toJSON ms).nodes.map (·.1) = ms.idToNode.map (·.1) := by
    show (ms.idToNode.map (fun p => (p.1, serializeNode p.2))).map (·.1)
      = ms.idToNode.map (·.1)
    rw [List.map_map]
    rfl
  have hndkeys : ((MemoryStream.toJSON ms).nodes.map (·.1)).Nodup := by
    rw [hkeys1]
    exact inv_keys_nodup ms hinv
  have hsorted : List.insertionSort (fun a b => idSuffixVal a ≤ idSuffixVal b)
      ((MemoryStream.toJSON ms).nodes.map (·.1))
      = (MemoryStream.toJSON ms).nodes.map (·.1) := by
    rw [hkeys1]
    exact keys_sorted ms hinv
  have hsnds : (MemoryStream.toJSON ms).nodes.map (·.2)
      = (nodesOf ms).map serializeNode := by
    show (ms.idToNode.map (fun p => (p.1, serializeNode p.2))).map (·.2)
      = (nodesOf ms).map serializeNode
    rw [List.map_map]
    unfold nodesOf
    rw [List.map_map]
    rfl
  have hemb0 : ms.embeddings.foldl (fun m p => mapSet m p.1 p.2) [] = ms.embeddings :=
    foldl_mapSet_eq ms.embeddings hinv.embNodup
  have hgo := replay_go (nodesOf ms) []
    { MemoryStream.empty with
      embeddings := (MemoryStream.toJSON ms).embeddings.foldl
        (fun m p => mapSet m p.1 p.2) [] }
    ms.embeddings trivial hinv.nodesOk hkwn
    (by intro m hm; cases hm) hinv.embKeys hinv.embNodup rfl rfl rfl rfl rfl hemb0
  have hfold : List.foldl (fun ms2 nodeId =>
      match mapGet (MemoryStream.toJSON ms).nodes nodeId with
      | some sn => replayNode ms2 sn
      | none => ms2)
      { MemoryStream.empty with
        embeddings := (MemoryStream.toJSON ms).embeddings.foldl
          (fun m p => mapSet m p.1 p.2) [] }
      (List.insertionSort (fun a b => idSuffixVal a ≤ idSuffixVal b)
        ((MemoryStream.toJSON ms).nodes.map (·.1)))
      = ((nodesOf ms).map serializeNode).foldl replayNode
        { MemoryStream.empty with
          embeddings := (MemoryStream.toJSON ms).embeddings.foldl
            (fun m p => mapSet m p.1 p.2) [] } := by
    rw [hsorted]
    rw [foldl_lookup_eq (MemoryStream.toJSON ms).nodes hndkeys replayNode _
      (fun acc k v h => by
        show (match mapGet (MemoryStream.toJSON ms).nodes k with
          | some sn => replayNode acc sn
          | none => acc) = replayNode acc v
        rw [h])
      (MemoryStream.toJSON ms).nodes (fun p hp => hp)]
    rw [hsnds]
  constructor
  · show (List.foldl (fun ms2 nodeId =>
        match mapGet (MemoryStream.toJSON ms).nodes nodeId with
        | some sn => replayNode ms2 sn
        | none => ms2)
      { MemoryStream.empty with
        embeddings := (MemoryStream.toJSON ms).embeddings.foldl
          (fun m (p : String × List ℚ) => mapSet m p.1 p.2) [] }
      (List.insertionSort (fun a b => idSuffixVal a ≤ idSuffixVal b)
        ((MemoryStream.toJSON ms).nodes.map (fun q : String × SerializedNode => q.1)))).idToNode
      = pairsOf ((nodesOf ms).map primeNode)
    rw [hfold]
    exact hgo.1
  · show (List.foldl (fun ms2 nodeId =>
        match mapGet (MemoryStream.toJSON ms).nodes nodeId with
        | some sn => replayNode ms2 sn
        | none => ms2)
      { MemoryStream.empty with
        embeddings := (MemoryStream.toJSON ms).embeddings.foldl
          (fun m (p : String × List ℚ) => mapSet m p.1 p.2) [] }
      (List.insertionSort (fun a b => idSuffixVal a ≤ idSuffixVal b)
        ((MemoryStream.toJSON ms).nodes.map (fun q : String × SerializedNode => q.1)))).embeddings
      = ms.embeddings
    rw [hfold]
    exact hgo.2.2.2.2.2

def c4Ops : List MemOp :=
  [MemOp.event 100 none "plato" "is" "writing" "Plato writes"
    ["plato"] 6 ("Plato writes", [1]) [],
   MemOp.touch "node_1" 999]

/-- C4 counterexample: after `touchNode` raises `lastAccessed` to 999, the
serialize/deserialize round trip returns the node with `lastAccessed` back
at its creation time 100 — the reloaded record is not equal on every
`MemoryNode` field. -/
theorem toJSON_roundtrip_counterexample :
    ((buildStream c4Ops).getNode "node_1").map (·.lastAccessed) = some 999 ∧
    ((MemoryStream.ofData (buildStream c4Ops).toJSON).getNode "node_1").map
      (·.lastAccessed) = some 100 := by decide

/-- C4 (amended): for every store built by a sequence of add and touch
operations whose keyword-list arguments are duplicate-free, deserializing
the `toJSON` output reproduces the node count and the embedding cache
exactly, and reproduces every per-node field except `lastAccessed`, which
deserialization resets to the node's `created` time. -/
theorem toJSON_roundtrip_spec (ops : List MemOp)
    (hkw : ∀ op ∈ ops, op.kws.Nodup) :
    (MemoryStream.ofData (buildStream ops).toJSON).idToNode.length
      = (buildStream ops).idToNode.length ∧
    (MemoryStream.ofData (buildStream ops).toJSON).embeddings
      = (buildStream ops).embeddings ∧
    ∀ id, (MemoryStream.ofData (buildStream ops).toJSON).getNode id
      = ((buildStream ops).getNode id).map primeNode := by
  have hinv := storeInv_buildStream ops
  have hkwn : ∀ n ∈ nodesOf (buildStream ops), n.keywords.Nodup :=
    kwNodup_foldl ops MemoryStream.empty storeInv_empty (by intro n hn; cases hn) hkw
  obtain ⟨h1, h2⟩ := ofData_toJSON (buildStream ops) hinv hkwn
  refine ⟨?_, h2, ?_⟩
  · rw [h1]
    conv_rhs => rw [hinv.keys]
    unfold pairsOf
    rw [List.length_map, List.length_map, List.length_map]
  · intro id
    show mapGet (MemoryStream.ofData (buildStream ops).toJSON).idToNode id
      = (mapGet (buildStream ops).idToNode id).map primeNode
    rw [h1, pairsOf_map_lastOnly lastOnly_primeNode, mapGet_map_value]
    conv_rhs => rw [hinv.keys]

/-- C4 witness: the amended round-trip theorem applied to the concrete
two-operation sequence of the counterexample. -/
theorem toJSON_roundtrip_spec_witness :
    (MemoryStream.ofData (buildStream c4Ops).toJSON).idToNode.length
      = (buildStream c4Ops).idToNode.length ∧
    (MemoryStream.ofData (buildStream c4Ops).toJSON).embeddings
      = (buildStream c4Ops).embeddings ∧
    ∀ id, (MemoryStream.ofData (buildStream c4Ops).toJSON).getNode id
      = ((buildStream c4Ops).getNode id).map primeNode :=
  toJSON_roundtrip_spec c4Ops (by decide)
